import Mathlib

/-!
Verification development for the Line Localization Machine content-translation
engine (`src/shared/debug.js` and companion background/popup scripts).

The JavaScript source is shallowly embedded: JS strings become Lean `String`
(or `List Char` where character-level reasoning is needed), JS arrays become
Lean `List`, JS objects with string keys become association lists, and the
asynchronous pipeline becomes an explicit step relation / sequential fold.
Machine arithmetic on string indices is exact in JS (all indices are far below
2^53), so `Nat`/`Int` are used directly.
-/

namespace LLM

/-! ## JS string primitives

JS strings are embedded as `List Char` (one entry per code point; all inputs
reasoned about are in the Basic Multilingual Plane, where JS code units and
code points coincide).  Lean `String` literals enter through `String.data`.
All operations are defined by structural recursion (with an explicit fuel
argument where the recursion skips more than one character) so that concrete
instances evaluate inside the kernel. -/

abbrev Str := List Char

/-- Whitespace for JS `String.prototype.trim` and the regex `\s` class:
the full ECMAScript WhiteSpace and LineTerminator set (TAB, LF, VT, FF, CR,
SP, NBSP, U+1680, U+2000-U+200A, U+2028, U+2029, U+202F, U+205F, U+3000,
U+FEFF). -/
def isJsSpace (c : Char) : Bool :=
  c.toNat = 0x9 || c.toNat = 0xA || c.toNat = 0xB || c.toNat = 0xC ||
  c.toNat = 0xD || c.toNat = 0x20 || c.toNat = 0xA0 || c.toNat = 0x1680 ||
  (0x2000 <= c.toNat && c.toNat <= 0x200A) ||
  c.toNat = 0x2028 || c.toNat = 0x2029 || c.toNat = 0x202F ||
  c.toNat = 0x205F || c.toNat = 0x3000 || c.toNat = 0xFEFF

/-- JS `s.trim()`. -/
def trimL (s : Str) : Str :=
  ((s.dropWhile isJsSpace).reverse.dropWhile isJsSpace).reverse

/-- JS `sub.length > 0 && s.includes(sub)`. -/
def hasSubstr (sub : Str) : Str → Bool
  | [] => false
  | c :: rest => sub.isPrefixOf (c :: rest) || hasSubstr sub rest

/-- JS `s.split(sep)` for a non-empty string separator `sep`: split on
non-overlapping occurrences found left-to-right, keeping empty pieces.
`fuel` bounds the recursion; it is always called with `fuel = s.length`. -/
def splitGo (sep : Str) (fuel : Nat) (s : Str) (acc : Str) : List Str :=
  match fuel, s with
  | _, [] => [acc.reverse]
  | 0, s => [acc.reverse ++ s]
  | fuel + 1, c :: rest =>
    if sep.isPrefixOf (c :: rest) then
      acc.reverse :: splitGo sep fuel (List.drop (sep.length - 1) rest) []
    else
      splitGo sep fuel rest (c :: acc)

def splitOnL (sep s : Str) : List Str :=
  splitGo sep s.length s []

/-- JS `s.indexOf(sub)` (first occurrence, `-1` if absent). -/
def indexOfL (sub : Str) : Str → Int
  | [] => -1
  | c :: rest =>
    if sub.isPrefixOf (c :: rest) then 0
    else
      let r := indexOfL sub rest
      if r < 0 then -1 else r + 1

/-- JS `s.lastIndexOf(' ', fromIndex)` specialised to the single-character
needle used by the proportional splitter: greatest index `p ≤ fromIndex` with
`s[p] = ' '`, else `-1`. -/
def lastSpaceGo (fromIndex : Nat) : List (Nat × Char) → Int
  | [] => -1
  | (i, c) :: rest =>
    let r := lastSpaceGo fromIndex rest
    if r ≥ 0 then r
    else if i ≤ fromIndex ∧ c = ' ' then (i : Int) else -1

def lastSpaceLE (s : Str) (fromIndex : Nat) : Int :=
  lastSpaceGo fromIndex s.enum

/-- JS `s.substring(a, b)` (indices clamped to `[0, length]`, swapped if
out of order). -/
def substringL (s : Str) (a b : Int) : Str :=
  let n : Int := s.length
  let clamp : Int → Nat := fun i => (max 0 (min i n)).toNat
  let x := clamp a
  let y := clamp b
  (s.take (max x y)).drop (min x y)

/-- ECMAScript GetSubstitution for a string replacement value with no
capture groups: `$$` emits a literal dollar, `$&` the matched substring,
a dollar followed by U+0060 the portion before the match, a dollar
followed by an apostrophe the portion after the match; any other dollar
is literal. -/
def getSubstitution (matched before after : Str) : Str -> Str
  | [] => []
  | c :: rest =>
    if c = '$' then
      match rest with
      | [] => ['$']
      | d :: rest2 =>
        if d = '$' then '$' :: getSubstitution matched before after rest2
        else if d = '&' then matched ++ getSubstitution matched before after rest2
        else if d = Char.ofNat 0x60 then before ++ getSubstitution matched before after rest2
        else if d = '\'' then after ++ getSubstitution matched before after rest2
        else '$' :: d :: getSubstitution matched before after rest2
    else c :: getSubstitution matched before after rest

/-- JS `s.replace(target, repl)` for a plain-string `target`: replace the
first occurrence only (applying GetSubstitution to `repl`); the string is
unchanged when `target` is absent.  `before` accumulates the part of the
original string to the left of the scan position. -/
def replaceFirstL (target repl : Str) (fuel : Nat) (s before : Str) : Str :=
  match fuel, s with
  | _, [] => []
  | 0, s => s
  | fuel + 1, c :: rest =>
    if target.isPrefixOf (c :: rest) then
      getSubstitution target before (List.drop (target.length - 1) rest) repl ++
        List.drop (target.length - 1) rest
    else
      c :: replaceFirstL target repl fuel rest (before ++ [c])

def replaceFirst (target repl s : Str) : Str :=
  replaceFirstL target repl s.length s []

/-- JS `s.replace(new RegExp(escapedTarget, 'g'), repl)` for a plain-string
target: replace every non-overlapping occurrence left-to-right, applying
GetSubstitution to `repl` at each occurrence. -/
def replaceAllL (target repl : Str) (fuel : Nat) (s before : Str) : Str :=
  match fuel, s with
  | _, [] => []
  | 0, s => s
  | fuel + 1, c :: rest =>
    if target.isPrefixOf (c :: rest) then
      getSubstitution target before (List.drop (target.length - 1) rest) repl ++
        replaceAllL target repl fuel (List.drop (target.length - 1) rest) (before ++ target)
    else
      c :: replaceAllL target repl fuel rest (before ++ [c])

def replaceAll (target repl s : Str) : Str :=
  replaceAllL target repl s.length s []

/-- JS `Array.prototype.slice(start, end?)` with possibly negative indices. -/
def jsSlice {α : Type} (l : List α) (start : Int) (stop : Option Int) : List α :=
  let n : Int := l.length
  let norm : Int → Nat := fun i => (if i < 0 then max (n + i) 0 else min i n).toNat
  let s := norm start
  let e := match stop with
    | none => l.length
    | some i => norm i
  (l.take e).drop s

/-- Decimal digits of a natural number (`String(n)` in template literals). -/
def natDigitsGo (fuel n : Nat) : Str :=
  match fuel with
  | 0 => []
  | f + 1 =>
    if n < 10 then [Char.ofNat (48 + n)]
    else natDigitsGo f (n / 10) ++ [Char.ofNat (48 + n % 10)]

def natDigits (n : Nat) : Str := natDigitsGo (n + 1) n

/-- Case-insensitive prefix test against an already-lowercase pattern (the
`i` flag of the anchor regexes). -/
def ciIsPrefix : Str → Str → Bool
  | [], _ => true
  | _ :: _, [] => false
  | p :: ps, c :: cs => (c.toLower = p) && ciIsPrefix ps cs

/-! ## Link Placeholder Codec
(`replaceLinksWithPlaceholders` / `restoreLinksFromPlaceholders`,
src/shared/debug.js:1164-1265)

`encode` rewrites every match of
`/<a\s+[^>]*href\s*=\s*["']([^"']*)["'][^>]*>(.*?)<\/a>/gi` into
`[LINK_n]inner[/LINK_n]`.  The backtracking match at a given start position
is embedded as follows: after the literal `<a` the first character must be
whitespace (`\s+`), and the engine tries the start position `p` of `href`
from the largest feasible value downwards (greedy `[^>]*` with backtracking);
every character strictly between the whitespace head and `p` must differ
from `>`.  The remaining sub-patterns (`\s*=\s*`, the quoted value, `[^>]*>`
and the lazy `(.*?)<\/a>`) are deterministic. -/

structure LinkData where
  originalHTML : Str
  href : Str
  originalText : Str
  attributes : Str
deriving Repr, DecidableEq

/-- The shared `linkMap`, keyed by the numeric part of `[LINK_n]` (JS object
keys iterate in insertion order for these non-index keys). -/
abbrev LinkMap := List (Nat × LinkData)

def linkToken (n : Nat) : Str := "[LINK_".data ++ natDigits n ++ "]".data

def linkCloseToken (n : Nat) : Str := "[/LINK_".data ++ natDigits n ++ "]".data

/-- The lazy `(.*?)<\/a>` tail: shortest prefix free of line terminators
followed by a case-insensitive `</a>`.  Returns the inner text and the rest
after the closing tag. -/
def matchInner : Str → Option (Str × Str)
  | [] => none
  | c :: rest =>
    if ciIsPrefix "</a>".data (c :: rest) then some ([], List.drop 3 rest)
    else if c = '\n' ∨ c = '\r' ∨ c = Char.ofNat 0x2028 ∨ c = Char.ofNat 0x2029 then none
    else
      match matchInner rest with
      | some (i, r) => some (c :: i, r)
      | none => none

/-- The deterministic part after the `href` literal:
`href\s*=\s*["']([^"']*)["'][^>]*>(.*?)<\/a>`.  Returns
`(href value, inner text, rest after the whole match)`. -/
def matchFromHref (v : Str) : Option (Str × Str × Str) :=
  if ciIsPrefix "href".data v then
    match (List.drop 4 v).dropWhile isJsSpace with
    | '=' :: v3 =>
      match v3.dropWhile isJsSpace with
      | q :: v5 =>
        if q = '"' ∨ q = '\'' then
          match v5.drop (v5.takeWhile (fun c => ¬ (c = '"' ∨ c = '\''))).length with
          | q2 :: v6 =>
            if q2 = '"' ∨ q2 = '\'' then
              match v6.drop (v6.takeWhile (· ≠ '>')).length with
              | '>' :: v7 =>
                match matchInner v7 with
                | some (inner, rest) =>
                  some (v5.takeWhile (fun c => ¬ (c = '"' ∨ c = '\'')), inner, rest)
                | none => none
              | _ => none
            else none
          | [] => none
        else none
      | [] => none
    | _ => none
  else none

/-- Feasibility of `href` starting at offset `p` inside the region after
`<a`: at least one leading whitespace character, and no `>` strictly between
it and `p`. -/
def anchorHeadOk (t : Str) (p : Nat) : Bool :=
  decide (p ≤ t.length) &&
  match t with
  | [] => false
  | h :: rest => isJsSpace h && (rest.take (p - 1)).all (· ≠ '>')

/-- Try `href` start offsets `p, p-1, …, 1` (the backtracking order of the
greedy `[^>]*`). -/
def tryAnchorPs (t : Str) : Nat → Option (Nat × Str × Str × Str)
  | 0 => none
  | pp + 1 =>
    if anchorHeadOk t (pp + 1) then
      match matchFromHref (t.drop (pp + 1)) with
      | some (href, inner, rest) => some (pp + 1, href, inner, rest)
      | none => tryAnchorPs t pp
    else tryAnchorPs t pp

structure AnchorMatch where
  href : Str
  inner : Str
  /-- total number of characters matched -/
  len : Nat
deriving Repr, DecidableEq

/-- Attempt the anchor regex at the start of `s`. -/
def matchAnchorAt (s : Str) : Option AnchorMatch :=
  match s with
  | c0 :: c1 :: t =>
    if c0 = '<' ∧ c1.toLower = 'a' then
      match tryAnchorPs t t.length with
      | some (_, href, inner, rest) => some ⟨href, inner, s.length - rest.length⟩
      | none => none
    else none
  | _ => none

/-- Group 1 of `/<a\s+([^>]*)>/i` at one start position: after `<a` and a
non-empty whitespace run, the longest `>`-free run followed by `>`. -/
def attrsOfAt (s : Str) : Option Str :=
  match s with
  | c0 :: c1 :: t =>
    if c0 = '<' ∧ c1.toLower = 'a' then
      match t with
      | h :: _ =>
        if isJsSpace h then
          let afterWs := t.dropWhile isJsSpace
          let attrs := afterWs.takeWhile (· ≠ '>')
          match afterWs.drop attrs.length with
          | '>' :: _ => some attrs
          | _ => none
        else none
      | [] => none
    else none
  | _ => none

def attrsSearch : Str → Option Str
  | [] => none
  | c :: rest =>
    match attrsOfAt (c :: rest) with
    | some a => some a
    | none => attrsSearch rest

/-- `match.match(/<a\s+([^>]*)>/i)?.[1] || `href="${href}"`` at
src/shared/debug.js:1191. -/
def attrsOf (whole href : Str) : Str :=
  match attrsSearch whole with
  | some a => a
  | none => "href=\"".data ++ href ++ "\"".data

/-- The global (`g`-flag) replacement loop of `replaceLinksWithPlaceholders`:
scan left to right, substituting `[LINK_n]inner[/LINK_n]` and recording the
link metadata; `counter` continues from the current size of the shared map. -/
def replaceAnchorsGo (fuel : Nat) (s : Str) (counter : Nat) (map : LinkMap) :
    Str × LinkMap :=
  match fuel, s with
  | _, [] => ([], map)
  | 0, s => (s, map)
  | f + 1, c :: rest =>
    match matchAnchorAt (c :: rest) with
    | some m =>
      let n := counter + 1
      let whole := (c :: rest).take m.len
      let entry : LinkData :=
        { originalHTML := whole, href := m.href, originalText := m.inner,
          attributes := attrsOf whole m.href }
      let res := replaceAnchorsGo f (List.drop (m.len - 1) rest) n (map ++ [(n, entry)])
      (linkToken n ++ m.inner ++ linkCloseToken n ++ res.1, res.2)
    | none =>
      let res := replaceAnchorsGo f rest counter map
      (c :: res.1, res.2)

/-- `replaceLinksWithPlaceholders(text, linkMap)` (src/shared/debug.js:1164). -/
def replaceLinksWithPlaceholders (text : Str) (map : LinkMap) : Str × LinkMap :=
  replaceAnchorsGo text.length text map.length map

/-- One iteration of the restore loop (src/shared/debug.js:1220-1262). -/
def restoreOne (text : Str) (n : Nat) (d : LinkData) : Str :=
  let startP := linkToken n
  let endP := linkCloseToken n
  let si := indexOfL startP text
  let ei := indexOfL endP text
  if si ≠ -1 ∧ ei ≠ -1 ∧ ei > si then
    let extracted := substringL text (si + startP.length) ei
    let translatedLinkText := trimL extracted
    let newLink := "<a ".data ++ d.attributes ++ ">".data ++ translatedLinkText ++ "</a>".data
    let placeholderSection := substringL text si (ei + endP.length)
    replaceFirst placeholderSection newLink text
  else if hasSubstr startP text then
    replaceAll startP d.originalHTML text
  else text

/-- `restoreLinksFromPlaceholders(text, linkMap)` (src/shared/debug.js:1206). -/
def restoreLinksFromPlaceholders (text : Str) (map : LinkMap) : Str :=
  map.foldl (fun t e => restoreOne t e.1 e.2) text

/-! ## Block grouping (`groupIntoBlocks`, `isBlockBoundary`, `areElementsRelated`)

`groupIntoBlocks` observes of each extracted item only: its element's tag
name, the identity of its parent element, its DOM depth
(`getElementDepth`), and the identity of the nearest
`ul, ol, table, blockquote, .content, .post` ancestor (`closest`).  A `GItem`
records exactly those observations (element identities as `Nat` ids) together
with the item payload fields used by the rest of the pipeline. -/

structure GItem where
  /-- `element.tagName.toLowerCase()` -/
  tag : String
  /-- id of `element.parentElement` -/
  parentId : Nat
  /-- `getElementDepth(element)`: number of ancestors strictly below `document.body` -/
  depth : Nat
  /-- id of `element.closest('ul, ol, table, blockquote, .content, .post')`, if any -/
  container : Option Nat
  /-- `item.originalText` -/
  originalText : String
  /-- `item.originalHTML` (`null` unless the element has links) -/
  originalHTML : Option String
  /-- `item.hasLinks` -/
  hasLinks : Bool
  /-- `item.originalInnerHTML` -/
  originalInnerHTML : String
deriving Repr, DecidableEq

/-- `isBlockBoundary(element, nextElement)` (src/shared/debug.js:1000-1027);
`Math.abs(elementDepth - nextElementDepth) > 2` becomes `Int.natAbs ... > 2`. -/
def isBlockBoundary (element : GItem) (nextElement : Option GItem) : Bool :=
  let tagName := element.tag
  if ["h1", "h2", "h3", "h4", "h5", "h6", "article", "section"].contains tagName then
    true
  else
    match nextElement with
    | none => false
    | some next =>
      let nextTagName := next.tag
      if tagName ≠ nextTagName && ["p", "div", "li", "blockquote"].contains nextTagName then
        true
      else if element.parentId ≠ next.parentId then
        decide (((element.depth : Int) - (next.depth : Int)).natAbs > 2)
      else
        false

/-- `areElementsRelated(element1, element2)` (src/shared/debug.js:1029-1044). -/
def areElementsRelated (element1 element2 : GItem) : Bool :=
  if element1.parentId = element2.parentId then
    true
  else
    match element1.container, element2.container with
    | some c1, some c2 => c1 = c2
    | _, _ => false

/-- `!nextElement || !areElementsRelated(element, nextElement)` — the soft-cap
flush condition at src/shared/debug.js:980. -/
def nextUnrelated (element : GItem) (nextElement : Option GItem) : Bool :=
  match nextElement with
  | none => true
  | some next => ¬ areElementsRelated element next

/-- First phase of a `groupIntoBlocks` iteration: the boundary check at
src/shared/debug.js:970-973 (flush the current block before pushing). -/
def groupPhaseBoundary (acc : List (List GItem) × List GItem) (element : GItem)
    (nextElement : Option GItem) : List (List GItem) × List GItem :=
  if isBlockBoundary element nextElement ∧ acc.2.length > 0 then
    (acc.1 ++ [acc.2], [])
  else acc

/-- Second phase: push the element, then the soft-cap-3 check at
src/shared/debug.js:975-984. -/
def groupPhaseSoft (acc : List (List GItem) × List GItem) (element : GItem)
    (nextElement : Option GItem) : List (List GItem) × List GItem :=
  if (acc.2 ++ [element]).length ≥ 3 ∧ nextUnrelated element nextElement then
    (acc.1 ++ [acc.2 ++ [element]], [])
  else (acc.1, acc.2 ++ [element])

/-- Third phase: the hard-cap-5 check at src/shared/debug.js:986-990. -/
def groupPhaseHard (acc : List (List GItem) × List GItem) :
    List (List GItem) × List GItem :=
  if acc.2.length ≥ 5 then (acc.1 ++ [acc.2], []) else acc

/-- Body of the `groupIntoBlocks` loop (src/shared/debug.js:965-991), one
iteration per item, carrying `(blocks, currentBlock)`. -/
def groupStep (acc : List (List GItem) × List GItem) (element : GItem)
    (nextElement : Option GItem) : List (List GItem) × List GItem :=
  groupPhaseHard (groupPhaseSoft (groupPhaseBoundary acc element nextElement)
    element nextElement)

/-- Loop of `groupIntoBlocks` over the remaining items (`nextElement` is the
head of the remaining list, as `textElements[i + 1]` in the source). -/
def groupLoop (acc : List (List GItem) × List GItem) :
    List GItem → List (List GItem) × List GItem
  | [] => acc
  | element :: rest => groupLoop (groupStep acc element rest.head?) rest

/-- `groupIntoBlocks(textElements)` (src/shared/debug.js:961-998). -/
def groupIntoBlocks (textElements : List GItem) : List (List GItem) :=
  if (groupLoop ([], []) textElements).2.length > 0 then
    (groupLoop ([], []) textElements).1 ++ [(groupLoop ([], []) textElements).2]
  else (groupLoop ([], []) textElements).1

/-! Invariants of one grouping step.  `GroupInv` states that every emitted
block has between 1 and 5 items, the pending block has at most 4, and
(for the partition property) the emitted blocks followed by the pending block
concatenate to the processed prefix. -/

def GroupInv (pre : List GItem) (acc : List (List GItem) × List GItem) : Prop :=
  (∀ b ∈ acc.1, 1 ≤ b.length ∧ b.length ≤ 5) ∧
  acc.2.length ≤ 4 ∧
  acc.1.flatten ++ acc.2 = pre

theorem groupPhaseBoundary_inv {pre acc} (element : GItem) (nx : Option GItem)
    (h : GroupInv pre acc) : GroupInv pre (groupPhaseBoundary acc element nx) := by
  obtain ⟨h1, h2, h3⟩ := h
  unfold GroupInv groupPhaseBoundary
  split
  · rename_i hc
    refine ⟨?_, by simp, by simpa using h3⟩
    intro b hb
    rcases List.mem_append.mp hb with hb | hb
    · exact h1 b hb
    · simp only [List.mem_singleton] at hb
      subst hb
      exact ⟨hc.2, by omega⟩
  · exact ⟨h1, h2, h3⟩

theorem groupPhaseSoft_inv {pre acc} (element : GItem) (nx : Option GItem)
    (h : GroupInv pre acc) :
    (∀ b ∈ (groupPhaseSoft acc element nx).1, 1 ≤ b.length ∧ b.length ≤ 5) ∧
    (groupPhaseSoft acc element nx).2.length ≤ 5 ∧
    (groupPhaseSoft acc element nx).1.flatten ++ (groupPhaseSoft acc element nx).2 =
      pre ++ [element] := by
  obtain ⟨h1, h2, h3⟩ := h
  unfold groupPhaseSoft
  split
  · rename_i hc
    refine ⟨?_, by simp, by simp [← h3]⟩
    intro b hb
    rcases List.mem_append.mp hb with hb | hb
    · exact h1 b hb
    · simp only [List.mem_singleton] at hb
      subst hb
      have := hc.1
      simp only [List.length_append, List.length_singleton] at this ⊢
      omega
  · refine ⟨h1, ?_, by simp [← h3]⟩
    simp only [List.length_append, List.length_singleton]
    omega

theorem groupPhaseHard_inv {pre : List GItem} {acc : List (List GItem) × List GItem}
    (h1 : ∀ b ∈ acc.1, 1 ≤ b.length ∧ b.length ≤ 5)
    (h2 : acc.2.length ≤ 5)
    (h3 : acc.1.flatten ++ acc.2 = pre) :
    GroupInv pre (groupPhaseHard acc) := by
  unfold GroupInv groupPhaseHard
  split
  · rename_i hc
    refine ⟨?_, by simp, by simpa using h3⟩
    intro b hb
    rcases List.mem_append.mp hb with hb | hb
    · exact h1 b hb
    · simp only [List.mem_singleton] at hb
      subst hb
      omega
  · rename_i hc
    exact ⟨h1, by omega, h3⟩

theorem groupStep_inv {pre acc} (element : GItem) (nx : Option GItem)
    (h : GroupInv pre acc) : GroupInv (pre ++ [element]) (groupStep acc element nx) := by
  have hb := groupPhaseBoundary_inv element nx h
  have hs := groupPhaseSoft_inv element nx hb
  exact groupPhaseHard_inv hs.1 hs.2.1 hs.2.2

theorem groupLoop_inv {pre acc} (rest : List GItem) (h : GroupInv pre acc) :
    GroupInv (pre ++ rest) (groupLoop acc rest) := by
  induction rest generalizing pre acc with
  | nil => simpa using h
  | cons element rest ih =>
    have := ih (groupStep_inv element rest.head? h)
    simpa using this

theorem groupIntoBlocks_inv (textElements : List GItem) :
    (∀ b ∈ groupIntoBlocks textElements, 1 ≤ b.length ∧ b.length ≤ 5) ∧
    (groupIntoBlocks textElements).flatten = textElements := by
  have h := @groupLoop_inv [] ([], []) textElements
    ⟨by simp, by simp, by simp⟩
  obtain ⟨h1, h2, h3⟩ := h
  simp only [List.nil_append] at h3
  unfold groupIntoBlocks
  split
  · rename_i hc
    refine ⟨?_, by simpa using h3⟩
    intro b hb
    rcases List.mem_append.mp hb with hb | hb
    · exact h1 b hb
    · simp only [List.mem_singleton] at hb
      subst hb
      omega
  · rename_i hc
    refine ⟨h1, ?_⟩
    have : (groupLoop ([], []) textElements).2 = [] := by
      cases hl : (groupLoop ([], []) textElements).2 with
      | nil => rfl
      | cons a l => rw [hl] at hc; simp at hc
    rw [this] at h3
    simpa using h3

/-! ## Animation/Mutation Engine (`animateLineTransition`, global toggle)

An element's observable state: its visible content (markup set via
`innerHTML`, or plain text set via `textContent`), its class list, and the
`data-llm-*` attributes the engine uses as its restoration record.
`data-llm-original-nodes` holds a JSON string array, embedded as the list it
encodes. -/

inductive VisContent where
  | html (s : String)
  | text (s : String)
deriving Repr, DecidableEq

structure ElemState where
  content : VisContent
  classes : List String
  attrOriginal : Option String
  attrTranslated : Option String
  attrState : Option String
  attrOriginalHtml : Option String
  attrOriginalNodes : Option (List String)
deriving Repr, DecidableEq

/-- `classList.add` (no-op when present, appended otherwise). -/
def addClass (cs : List String) (c : String) : List String :=
  if c ∈ cs then cs else cs ++ [c]

/-- `classList.remove`. -/
def removeClass (cs : List String) (c : String) : List String :=
  cs.filter (· ≠ c)

/-- `translatedText.includes('<a ') && translatedText.includes('</a>')`
(src/shared/debug.js:1629, 1801): decides whether the mutation goes through
`innerHTML` or `textContent`. -/
def containsHtmlLink (t : String) : Bool :=
  hasSubstr "<a ".data t.data && hasSubstr "</a>".data t.data

def setContentFor (t : String) : VisContent :=
  if containsHtmlLink t then .html t else .text t

/-- `element.innerHTML` read back from the model (markup as stored; a
text-set content reads back as its text, escaping of markup characters being
irrelevant to the properties proved here). -/
def readInnerHTML : VisContent → String
  | .html s => s
  | .text s => s

/-- `animateLineTransition(item, translatedText)` (src/shared/debug.js:
1598-1659): class phases `llm-preparing → llm-fading-out → llm-translated,
llm-settled`, the restoration attributes, and the content replacement. -/
def animateLineTransition (e : ElemState) (item : GItem) (translatedText : String) :
    ElemState :=
  let c1 := removeClass e.classes "llm-preparing"
  let c2 := addClass c1 "llm-fading-out"
  let c3 := removeClass c2 "llm-fading-out"
  let c4 := addClass c3 "llm-translated"
  let c5 := addClass c4 "llm-settled"
  { content := setContentFor translatedText
    classes := c5
    attrOriginal := some item.originalText
    attrTranslated := some translatedText
    attrState := some "translated"
    attrOriginalHtml := some (if item.originalInnerHTML ≠ "" then item.originalInnerHTML
      else readInnerHTML e.content)
    attrOriginalNodes := some [item.originalText] }

/-- The text-level restoration chain of the show-originals branch
(src/shared/debug.js:1781-1791): `restoreOriginalTextNodes` (which, with
`data-llm-original` set, writes it to `textContent`), else the
`findTextNode`/`textContent` fallbacks — all of which leave the element's
visible content equal to the stored original text. -/
def restoreTextPath (e : ElemState) (originalText : String) : ElemState :=
  match e.attrOriginalNodes with
  | some (_ :: _) => { e with content := .text originalText }
  | _ => { e with content := .text originalText }

/-- The show-originals arm of the global toggle handler
(src/shared/debug.js:1766-1795). -/
def toggleShowOriginal (e : ElemState) : ElemState :=
  match e.attrOriginal with
  | none => e
  | some originalText =>
    if originalText = "" then e
    else
      let e' :=
        match e.attrOriginalHtml with
        | some originalHTML =>
          if originalHTML ≠ "" ∧ originalHTML ≠ originalText then
            { e with content := .html originalHTML }
          else restoreTextPath e originalText
        | none => restoreTextPath e originalText
      { e' with attrState := some "showing-original",
                classes := addClass e'.classes "llm-showing-original" }

/-- The show-translations arm of the global toggle handler
(src/shared/debug.js:1796-1812). -/
def toggleShowTranslated (e : ElemState) : ElemState :=
  match e.attrTranslated with
  | none => e
  | some translatedText =>
    if translatedText = "" then e
    else
      { e with content := setContentFor translatedText,
               attrState := some "translated",
               classes := removeClass e.classes "llm-showing-original" }

/-- The toggle only touches elements matched by the selector
`[data-llm-state="translated"], [data-llm-state="showing-original"]`. -/
def inToggleSelection (e : ElemState) : Bool :=
  e.attrState = some "translated" || e.attrState = some "showing-original"

def toggleElement (showOriginals : Bool) (e : ElemState) : ElemState :=
  if inToggleSelection e then
    if showOriginals then toggleShowOriginal e else toggleShowTranslated e
  else e

theorem removeClass_of_not_mem {cs : List String} {c : String} (h : c ∉ cs) :
    removeClass cs c = cs := by
  simp only [removeClass, ne_eq, List.filter_eq_self, decide_not, Bool.not_eq_eq_eq_not,
    Bool.not_true, decide_eq_false_iff_not]
  intro a ha hac
  exact h (hac ▸ ha)

theorem removeClass_addClass {cs : List String} {c : String} (h : c ∉ cs) :
    removeClass (addClass cs c) c = cs := by
  unfold addClass
  rw [if_neg h]
  unfold removeClass
  rw [List.filter_append]
  have h1 := removeClass_of_not_mem h
  unfold removeClass at h1
  rw [h1]
  simp

theorem not_mem_addClass {cs : List String} {c d : String} (h : c ∉ cs) (hne : c ≠ d) :
    c ∉ addClass cs d := by
  unfold addClass
  split
  · exact h
  · simp_all

theorem not_mem_removeClass {cs : List String} {c d : String} (h : c ∉ cs) :
    c ∉ removeClass cs d := by
  unfold removeClass
  intro hc
  exact h (List.mem_of_mem_filter hc)

/-- Toggle-toggle identity for any element in the post-translation shape:
state attribute `translated`, a non-empty stored translated text whose
content-replacement form is the current visible content, and the
showing-original marker class absent. -/
theorem toggleElement_false_eval (C : VisContent) (CL : List String)
    (AO : Option String) (t S : String) (AOH : Option String)
    (AON : Option (List String))
    (hS : S = "translated" ∨ S = "showing-original") (ht : t ≠ "") :
    toggleElement false ⟨C, CL, AO, some t, some S, AOH, AON⟩ =
      ⟨setContentFor t, removeClass CL "llm-showing-original", AO, some t,
        some "translated", AOH, AON⟩ := by
  have hsel : inToggleSelection ⟨C, CL, AO, some t, some S, AOH, AON⟩ = true := by
    rcases hS with h | h <;> simp [inToggleSelection, h]
  simp [toggleElement, hsel, toggleShowTranslated, ht]

theorem toggle_toggle_restores (cls : List String) (t : String)
    (ao aoh : Option String) (aon : Option (List String))
    (ht : t ≠ "") (hcls : "llm-showing-original" ∉ cls) :
    toggleElement false (toggleElement true
      ⟨setContentFor t, cls, ao, some t, some "translated", aoh, aon⟩) =
      ⟨setContentFor t, cls, ao, some t, some "translated", aoh, aon⟩ := by
  have hsel : inToggleSelection
      ⟨setContentFor t, cls, ao, some t, some "translated", aoh, aon⟩ = true := by
    simp [inToggleSelection]
  have hfirst : toggleElement true
      ⟨setContentFor t, cls, ao, some t, some "translated", aoh, aon⟩ =
      toggleShowOriginal
        ⟨setContentFor t, cls, ao, some t, some "translated", aoh, aon⟩ := by
    simp [toggleElement, hsel]
  rw [hfirst]
  have hkeep : ∀ (C : VisContent) (S : String), S = "translated" ∨ S = "showing-original" →
      toggleElement false ⟨C, cls, ao, some t, some S, aoh, aon⟩ =
        ⟨setContentFor t, cls, ao, some t, some "translated", aoh, aon⟩ := by
    intro C S hS
    rw [toggleElement_false_eval C cls ao t S aoh aon hS ht,
      removeClass_of_not_mem hcls]
  have hmark : ∀ (C : VisContent),
      toggleElement false
        ⟨C, addClass cls "llm-showing-original", ao, some t,
          some "showing-original", aoh, aon⟩ =
        ⟨setContentFor t, cls, ao, some t, some "translated", aoh, aon⟩ := by
    intro C
    rw [toggleElement_false_eval _ _ _ _ _ _ _ (Or.inr rfl) ht,
      removeClass_addClass hcls]
  match ao with
  | none =>
    rw [show toggleShowOriginal
        ⟨setContentFor t, cls, none, some t, some "translated", aoh, aon⟩ =
        ⟨setContentFor t, cls, none, some t, some "translated", aoh, aon⟩ from rfl]
    exact hkeep _ _ (Or.inl rfl)
  | some ot =>
    by_cases hot : ot = ""
    · have : toggleShowOriginal
          ⟨setContentFor t, cls, some ot, some t, some "translated", aoh, aon⟩ =
          ⟨setContentFor t, cls, some ot, some t, some "translated", aoh, aon⟩ := by
        simp [toggleShowOriginal, hot]
      rw [this]
      exact hkeep _ _ (Or.inl rfl)
    · have hshape : ∃ C, toggleShowOriginal
          ⟨setContentFor t, cls, some ot, some t, some "translated", aoh, aon⟩ =
          ⟨C, addClass cls "llm-showing-original", some ot, some t,
            some "showing-original", aoh, aon⟩ := by
        simp only [toggleShowOriginal, if_neg hot]
        match aoh with
        | none =>
          refine ⟨.text ot, ?_⟩
          match aon with
          | none => simp [restoreTextPath]
          | some [] => simp [restoreTextPath]
          | some (x :: xs) => simp [restoreTextPath]
        | some oh =>
          by_cases hoh : oh ≠ "" ∧ oh ≠ ot
          · exact ⟨.html oh, by simp [if_pos hoh]⟩
          · refine ⟨.text ot, ?_⟩
            simp only [if_neg hoh]
            match aon with
            | none => simp [restoreTextPath]
            | some [] => simp [restoreTextPath]
            | some (x :: xs) => simp [restoreTextPath]
      obtain ⟨C, hC⟩ := hshape
      rw [hC]
      exact hmark C

/-- C6: for every element mutated by the animation engine, toggling the
global original⇄translated control twice restores the exact post-translation
element state (visible content, classes and restoration attributes). -/
theorem C6_toggle_toggle_id (e0 : ElemState) (item : GItem) (tr : String)
    (htr : tr ≠ "") (hcls : "llm-showing-original" ∉ e0.classes) :
    toggleElement false (toggleElement true (animateLineTransition e0 item tr)) =
      animateLineTransition e0 item tr := by
  have hnot : "llm-showing-original" ∉ (animateLineTransition e0 item tr).classes := by
    simp only [animateLineTransition]
    apply not_mem_addClass (d := "llm-settled") _ (by decide)
    apply not_mem_addClass (d := "llm-translated") _ (by decide)
    apply not_mem_removeClass
    apply not_mem_addClass (d := "llm-fading-out") _ (by decide)
    exact not_mem_removeClass hcls
  have : animateLineTransition e0 item tr =
      ⟨setContentFor tr, (animateLineTransition e0 item tr).classes,
        some item.originalText, some tr, some "translated",
        some (if item.originalInnerHTML ≠ "" then item.originalInnerHTML
          else readInnerHTML e0.content), some [item.originalText]⟩ := by
    simp [animateLineTransition]
  rw [this]
  exact toggle_toggle_restores _ tr _ _ _ htr (by rw [this] at hnot; exact hnot)

/-- Witness for C6 at a concrete element, item and translated text. -/
theorem C6_toggle_toggle_id_witness :
    toggleElement false (toggleElement true (animateLineTransition
      ⟨.text "seed", [], none, none, none, none, none⟩
      { tag := "p", parentId := 0, depth := 1, container := none,
        originalText := "original text", originalHTML := none, hasLinks := false,
        originalInnerHTML := "original text" } "hola")) =
      animateLineTransition ⟨.text "seed", [], none, none, none, none, none⟩
        { tag := "p", parentId := 0, depth := 1, container := none,
          originalText := "original text", originalHTML := none, hasLinks := false,
          originalInnerHTML := "original text" } "hola" :=
  C6_toggle_toggle_id ⟨.text "seed", [], none, none, none, none, none⟩
    { tag := "p", parentId := 0, depth := 1, container := none,
      originalText := "original text", originalHTML := none, hasLinks := false,
      originalInnerHTML := "original text" } "hola" (by decide) (by decide)

/-- A plain paragraph item used for concrete instantiations: tag `p`, all
items sharing parent element 0 at depth 1, no list/table/quote container. -/
def mkP (s : String) : GItem :=
  { tag := "p", parentId := 0, depth := 1, container := none,
    originalText := s, originalHTML := none, hasLinks := false,
    originalInnerHTML := s }

/-- C8: every block returned by `groupIntoBlocks` contains between 1 and 5
items inclusive — blocks are closed at the soft cap of 3 unless the next item
is related, and unconditionally at the hard cap of 5. -/
theorem C8_groupIntoBlocks_size_bounds (items : List GItem) (b : List GItem)
    (hb : b ∈ groupIntoBlocks items) : 1 ≤ b.length ∧ b.length ≤ 5 :=
  (groupIntoBlocks_inv items).1 b hb

/-- Witness for C8: six same-parent paragraphs group into a 5-item block
(related items pass the soft cap, the hard cap closes at 5) plus a 1-item
block. -/
theorem C8_groupIntoBlocks_size_bounds_witness :
    1 ≤ [mkP "a", mkP "b", mkP "c", mkP "d", mkP "e"].length ∧
    [mkP "a", mkP "b", mkP "c", mkP "d", mkP "e"].length ≤ 5 :=
  C8_groupIntoBlocks_size_bounds
    [mkP "a", mkP "b", mkP "c", mkP "d", mkP "e", mkP "f"]
    [mkP "a", mkP "b", mkP "c", mkP "d", mkP "e"] (by decide)

/-- C10: the blocks returned by `groupIntoBlocks` form an ordered partition of
the input: concatenating them in order yields exactly the input sequence, with
no item dropped, duplicated, or reordered. -/
theorem C10_groupIntoBlocks_partition (items : List GItem) :
    (groupIntoBlocks items).flatten = items :=
  (groupIntoBlocks_inv items).2

/-! ## Batch Codec (`translateMultipleBlocks`, src/shared/debug.js:1267-1470)

Encoding joins each block's item texts with the item separator and the blocks
with the block separator; decoding applies the three-tier splitting ladder,
link restoration, the mismatch-recovery ladder, and the final original-text
safety net. -/

def blockSepFull : Str := "\n\n===BLOCK_SEPARATOR===\n\n".data
def blockSepBare : Str := "===BLOCK_SEPARATOR===".data
def blockSepSingle : Str := "\n===BLOCK_SEPARATOR===\n".data
def itemSepFull : Str := "\n\n||ITEM_SEPARATOR||\n\n".data
def itemSepBare : Str := "||ITEM_SEPARATOR||".data
def itemSepSingle : Str := "\n||ITEM_SEPARATOR||\n".data

def joinSep (sep : Str) : List Str → Str
  | [] => []
  | [x] => x
  | x :: xs => x ++ sep ++ joinSep sep xs

/-- Text sent for one item (src/shared/debug.js:1272-1292): the
placeholder-encoded HTML when the item has links and a stored HTML snapshot,
otherwise the plain original text. -/
def encodeItemText (map : LinkMap) (item : GItem) : Str × LinkMap :=
  if item.hasLinks then
    match item.originalHTML with
    | some html => replaceLinksWithPlaceholders html.data map
    | none => (item.originalText.data, map)
  else (item.originalText.data, map)

def encodeBlockItems (map : LinkMap) : List GItem → List Str × LinkMap
  | [] => ([], map)
  | it :: rest =>
    let r := encodeItemText map it
    let rs := encodeBlockItems r.2 rest
    (r.1 :: rs.1, rs.2)

def encodeBlocksGo (map : LinkMap) : List (List GItem) → List Str × LinkMap
  | [] => ([], map)
  | b :: bs =>
    let r := encodeBlockItems map b
    let rs := encodeBlocksGo r.2 bs
    (joinSep itemSepFull r.1 :: rs.1, rs.2)

/-- `blockTexts` and the shared `linkMap` after encoding all blocks. -/
def tmbEncode (blocks : List (List GItem)) : List Str × LinkMap :=
  encodeBlocksGo [] blocks

/-- `combinedText` sent to the channel (src/shared/debug.js:1297). -/
def tmbCombined (blocks : List (List GItem)) : Str :=
  joinSep blockSepFull (tmbEncode blocks).1

/-- Block-separator splitting ladder (src/shared/debug.js:1313-1325). -/
def blockLadder (s : Str) : List Str :=
  let tb := splitOnL blockSepFull s
  let tb := if tb.length = 1 ∧ hasSubstr blockSepBare s then splitOnL blockSepBare s else tb
  let tb := if tb.length = 1 ∧ hasSubstr blockSepBare s then splitOnL blockSepSingle s else tb
  tb

/-- `.map(trim).filter(length > 0)` applied after each item split. -/
def cleanParts (l : List Str) : List Str :=
  (l.map trimL).filter (fun p => p ≠ [])

/-- Item-separator splitting ladder (src/shared/debug.js:1338-1357). -/
def itemLadder (s : Str) : List Str :=
  let ps := cleanParts (splitOnL itemSepFull s)
  let ps := if ps.length = 1 ∧ hasSubstr itemSepBare s then cleanParts (splitOnL itemSepBare s) else ps
  let ps := if ps.length = 1 ∧ hasSubstr itemSepBare s then cleanParts (splitOnL itemSepSingle s) else ps
  ps

/-- `singleTranslation.split(/[.!?]\s+/)` (src/shared/debug.js:1403-1405):
a separator is a sentence punctuation character followed by a maximal
whitespace run, both removed. -/
def sentSplitGo (fuel : Nat) (s : Str) (acc : Str) : List Str :=
  match fuel, s with
  | _, [] => [acc.reverse]
  | 0, s => [acc.reverse ++ s]
  | f + 1, c :: rest =>
    if (c = '.' || c = '!' || c = '?') &&
        (match rest with | r :: _ => isJsSpace r | [] => false) then
      acc.reverse :: sentSplitGo f (rest.dropWhile isJsSpace) []
    else sentSplitGo f rest (c :: acc)

def sentenceSplit (s : Str) : List Str := sentSplitGo s.length s []

/-- `s.match(/[.!?]$/)` -/
def endsPunct (s : Str) : Bool :=
  match s.getLast? with
  | some c => c = '.' || c = '!' || c = '?'
  | none => false

/-- Recovery when exactly one part was produced for a multi-item block
(src/shared/debug.js:1398-1432): sentence split, then double-newline
paragraphs, then proportional character-length split at a near word boundary.
The JS float threshold `wordBoundary > splitIndex * 0.7` is modelled exactly
over `Int` as `10 * wordBoundary > 7 * splitIndex`. -/
def proportionalGo (avgLength : Nat) : Nat → Str → List Str
  | 0, remaining => [remaining]
  | j + 1, remaining =>
    let splitIndex := min avgLength remaining.length
    let wordBoundary := lastSpaceLE remaining splitIndex
    let cutIndex : Int :=
      if 10 * wordBoundary > 7 * (splitIndex : Int) then wordBoundary else splitIndex
    trimL (substringL remaining 0 cutIndex) ::
      proportionalGo avgLength j (trimL (substringL remaining cutIndex remaining.length))

def recoverSingle (blockLen : Nat) (single : Str) : List Str :=
  let sentences := (sentenceSplit single).filter (fun s => s ≠ [] ∧ trimL s ≠ [])
  let paragraphs := ((splitOnL "\n\n".data single)).filter (fun p => p ≠ [] ∧ trimL p ≠ [])
  if sentences.length = blockLen then
    sentences.map (fun s => trimL s ++ (if endsPunct s then [] else ['.']))
  else if paragraphs.length = blockLen then
    paragraphs.map trimL
  else
    proportionalGo ((single.length + blockLen - 1) / blockLen) (blockLen - 1) single

/-- More parts than items: merge the surplus into the last expected slot
(src/shared/debug.js:1433-1438). -/
def mergeExtra (blockLen : Nat) (parts : List Str) : List Str :=
  let merged := jsSlice parts 0 (some ((blockLen : Int) - 1))
  let lastParts := jsSlice parts ((blockLen : Int) - 1) none
  merged ++ [trimL (joinSep [' '] lastParts)]

/-- Fewer parts: pad the missing trailing slots with the corresponding
original texts (src/shared/debug.js:1439-1445). -/
def padMissing (block : List GItem) (parts : List Str) : List Str :=
  parts ++ (block.drop parts.length).map (fun it => it.originalText.data)

/-- The full mismatch-recovery ladder for one block
(src/shared/debug.js:1380-1446), applied when the part count differs from the
block's item count. -/
def recoverMismatch (block : List GItem) (parts : List Str) : List Str :=
  if parts.length = 1 ∧ block.length > 1 then
    recoverSingle block.length (parts.headD [])
  else if parts.length > block.length then
    mergeExtra block.length parts
  else
    padMissing block parts

/-- The recovered parts for one block: ladder split, link restoration, then
mismatch recovery. -/
def recoveredParts (map : LinkMap) (block : List GItem)
    (translatedBlockText : Str) : List Str :=
  let parts := (itemLadder translatedBlockText).map
    (fun p => restoreLinksFromPlaceholders p map)
  if parts.length = block.length then parts else recoverMismatch block parts

/-- `translatedBlocks[i] || blockTexts[i]` (src/shared/debug.js:1335): an
absent or empty entry falls back to the untranslated block text. -/
def blockTextOrFallback (translatedBlockOpt : Option Str) (fallback : Str) : Str :=
  match translatedBlockOpt with
  | some t => if t = [] then fallback else t
  | none => fallback

/-- One block of the decode loop, including the final original-text safety
net (src/shared/debug.js:1448-1454). -/
def processBlock (map : LinkMap) (block : List GItem) (fallback : Str)
    (translatedBlockOpt : Option Str) : List Str :=
  if (recoveredParts map block (blockTextOrFallback translatedBlockOpt fallback)).length
      = block.length then
    recoveredParts map block (blockTextOrFallback translatedBlockOpt fallback)
  else block.map (fun it => it.originalText.data)

/-- The decode half of `translateMultipleBlocks`, given the channel's
response text. -/
def tmbDecode (blocks : List (List GItem)) (translatedText : Str) : List (List Str) :=
  (List.range blocks.length).map (fun i =>
    processBlock (tmbEncode blocks).2 (blocks.getD i [])
      ((tmbEncode blocks).1.getD i []) ((blockLadder translatedText).get? i))

/-- The parts block `i`'s recovery ladder produced, before the final safety
net — named so the fallback condition of the decode can be stated. -/
def tmbRecoveredAt (blocks : List (List GItem)) (translatedText : Str) (i : Nat) : List Str :=
  recoveredParts (tmbEncode blocks).2 (blocks.getD i [])
    (blockTextOrFallback ((blockLadder translatedText).get? i) ((tmbEncode blocks).1.getD i []))

theorem processBlock_length (map : LinkMap) (block : List GItem) (fb : Str)
    (opt : Option Str) : (processBlock map block fb opt).length = block.length := by
  unfold processBlock
  split
  · assumption
  · simp

theorem tmbDecode_length (blocks : List (List GItem)) (resp : Str) :
    (tmbDecode blocks resp).length = blocks.length := by
  simp [tmbDecode]

theorem tmbDecode_getD (blocks : List (List GItem)) (resp : Str) (i : Nat)
    (h : i < blocks.length) :
    (tmbDecode blocks resp).getD i [] =
      processBlock (tmbEncode blocks).2 (blocks.getD i [])
        ((tmbEncode blocks).1.getD i []) ((blockLadder resp).get? i) := by
  unfold tmbDecode
  rw [List.getD_eq_getElem _ _ (by simpa using h)]
  simp

/-- C1: for every list of blocks and channel response, the decode half of
`translateMultipleBlocks` returns exactly `blocks.length` arrays whose `i`-th
entry has exactly `blocks[i].length` strings; and whenever the recovery
ladder fails to produce a matching item count for a block, that block's array
is exactly its items' original texts. -/
theorem C1_tmbDecode_counts_and_fallback (blocks : List (List GItem)) (resp : Str) :
    (tmbDecode blocks resp).map List.length = blocks.map List.length ∧
    ∀ i, i < blocks.length →
      (tmbRecoveredAt blocks resp i).length ≠ (blocks.getD i []).length →
      (tmbDecode blocks resp).getD i [] =
        (blocks.getD i []).map (fun it => it.originalText.data) := by
  constructor
  · apply List.ext_getElem
    · simp [tmbDecode]
    · intro i h1 h2
      simp only [tmbDecode, List.getElem_map, List.getElem_range]
      rw [processBlock_length]
      have hi : i < blocks.length := by simpa [tmbDecode] using h1
      rw [List.getD_eq_getElem _ _ hi]
  · intro i hi hmis
    rw [tmbDecode_getD blocks resp i hi]
    unfold processBlock
    rw [if_neg]
    exact fun hc => hmis (by simpa [tmbRecoveredAt] using hc)

/-- Witness for C1: a single empty block with response `"x"` drives the
recovery ladder to a non-matching count, and the decode returns the (empty)
original-text list for it. -/
theorem C1_tmbDecode_counts_and_fallback_witness :
    (tmbDecode [([] : List GItem)] "x".data).map List.length =
      [([] : List GItem)].map List.length ∧
    (tmbRecoveredAt [([] : List GItem)] "x".data 0).length ≠
      (([[]] : List (List GItem)).getD 0 []).length ∧
    (tmbDecode [([] : List GItem)] "x".data).getD 0 [] =
      (([[]] : List (List GItem)).getD 0 []).map (fun it => it.originalText.data) := by
  refine ⟨(C1_tmbDecode_counts_and_fallback [[]] "x".data).1, by decide, ?_⟩
  exact (C1_tmbDecode_counts_and_fallback [[]] "x".data).2 0 (by decide) (by decide)

/-! ## Translation Channel results and error classification

The background script (`handleTranslationRequest`) relays `APIClient.translate`
results to the content script unchanged: `{success: true, translatedText}` or
`{success: false, error, errorType, errorStatus, isRetryable, ...}`.  For an
HTTP error of status `s`, `APIClient.chatCompletion` sets
`type = categorizeError(s)` and `isRetryable = s >= 500 || s === 429`. -/

structure ChannelFailure where
  error : String
  errorType : Option String
  errorStatus : Option Nat
  isRetryable : Bool
deriving Repr, DecidableEq

inductive ChannelResult where
  | ok (translatedText : String)
  | fail (f : ChannelFailure)
deriving Repr, DecidableEq

/-- `APIClient.categorizeError(status)` (src/shared/debug.js:392-400). -/
def categorizeError (status : Nat) : String :=
  if status = 401 then "authentication"
  else if status = 403 then "forbidden"
  else if status = 404 then "not_found"
  else if status = 429 then "rate_limit"
  else if 400 ≤ status ∧ status < 500 then "client_error"
  else if 500 ≤ status then "server_error"
  else "unknown"

/-- The channel failure produced for an HTTP error response of the given
status (src/shared/debug.js:131-142 relayed through the background script). -/
def apiHttpFailure (status : Nat) : ChannelFailure :=
  { error := "API Error"
    errorType := some (categorizeError status)
    errorStatus := some status
    isRetryable := 500 ≤ status ∨ status = 429 }

/-- The error object `callTranslationAPI` throws for a failed channel result
(src/shared/debug.js:1526-1550): `isFatalError` is set exactly when
`result.isRetryable === false` or `400 <= result.errorStatus < 500`. -/
structure ChanError where
  message : String
  errorType : Option String
  status : Option Nat
  isFatalError : Bool
deriving Repr, DecidableEq

def classifyChannelError (f : ChannelFailure) : ChanError :=
  { message := f.error
    errorType := f.errorType
    status := f.errorStatus
    isFatalError := !f.isRetryable ||
      (match f.errorStatus with
       | some s => decide (400 ≤ s ∧ s < 500)
       | none => false) }

/-! ## Translation history (`callTranslationAPI`, src/shared/debug.js:1562-1572) -/

structure HistEntry where
  original : String
  translated : String
  timestamp : Nat
deriving Repr, DecidableEq

/-- The history append of `callTranslationAPI`: push the new entry, then
`this.translationHistory = this.translationHistory.slice(-10)` when the
length exceeds 10. -/
def pushHistory (h : List HistEntry) (e : HistEntry) : List HistEntry :=
  if (h ++ [e]).length > 10 then (h ++ [e]).drop ((h ++ [e]).length - 10)
  else h ++ [e]

/-- `callTranslationAPI(text)` restricted to its observable result and history
effect (src/shared/debug.js:1499-1586): empty/blank text returns immediately;
a successful channel result is returned and appended to the history; a failed
one throws the classified error and leaves the history untouched. -/
def callTranslationAPIRun (history : List HistEntry) (text : String)
    (res : ChannelResult) (now : Nat) : Except ChanError String × List HistEntry :=
  if (trimL text.data).length = 0 then (.ok text, history)
  else
    match res with
    | .ok t => (.ok t, pushHistory history ⟨text, t, now⟩)
    | .fail f => (.error (classifyChannelError f), history)

/-- Session fields reset by `startTranslation` (src/shared/debug.js:519-522). -/
structure SessionStart where
  isTranslating : Bool
  translationHistory : List HistEntry
  completedBlocks : Nat
deriving Repr, DecidableEq

def startTranslationBegin (s : SessionStart) : SessionStart :=
  { s with isTranslating := true, translationHistory := [], completedBlocks := 0 }

/-- C9: the history is reset to empty at the start of every run; a failed
channel call leaves it unchanged; a successful call on non-blank text appends
the `{original, translated, timestamp}` entry most-recent-last; and every
append leaves at most 10 entries — the suffix of the pushed sequence of
length `min (n+1) 10`, i.e. the most recent entries in order. -/
theorem C9_history_reset_append_cap (s : SessionStart) (h : List HistEntry)
    (text t : String) (f : ChannelFailure) (e : HistEntry) (now : Nat)
    (htext : (trimL text.data).length ≠ 0) :
    (startTranslationBegin s).translationHistory = [] ∧
    (callTranslationAPIRun h text (.fail f) now).2 = h ∧
    (callTranslationAPIRun h text (.ok t) now).2 = pushHistory h ⟨text, t, now⟩ ∧
    (pushHistory h e).length ≤ 10 ∧
    (pushHistory h e) <:+ (h ++ [e]) ∧
    (pushHistory h e).length = min (h.length + 1) 10 := by
  refine ⟨rfl, ?_, ?_, ?_, ?_, ?_⟩
  · simp [callTranslationAPIRun, htext]
  · simp [callTranslationAPIRun, htext]
  · unfold pushHistory
    split <;> rename_i hlen <;>
      simp only [List.length_drop, List.length_append, List.length_singleton] at hlen ⊢ <;>
      omega
  · unfold pushHistory
    split
    · exact List.drop_suffix _ _
    · exact List.suffix_refl _
  · unfold pushHistory
    split <;> rename_i hlen <;>
      simp only [List.length_drop, List.length_append, List.length_singleton] at hlen ⊢ <;>
      omega

/-- Witness for C9 at a concrete non-blank text and concrete history. -/
theorem C9_history_reset_append_cap_witness :
    (startTranslationBegin ⟨false, [], 0⟩).translationHistory = [] ∧
    (callTranslationAPIRun ([] : List HistEntry) "hello"
      (.fail (apiHttpFailure 500)) 7).2 = ([] : List HistEntry) ∧
    (callTranslationAPIRun ([] : List HistEntry) "hello" (.ok "bonjour") 7).2 =
      pushHistory [] ⟨"hello", "bonjour", 7⟩ ∧
    (pushHistory ([] : List HistEntry) ⟨"a", "b", 1⟩).length ≤ 10 ∧
    (pushHistory ([] : List HistEntry) ⟨"a", "b", 1⟩) <:+ ([] ++ [⟨"a", "b", 1⟩]) ∧
    (pushHistory ([] : List HistEntry) ⟨"a", "b", 1⟩).length =
      min (([] : List HistEntry).length + 1) 10 :=
  C9_history_reset_append_cap ⟨false, [], 0⟩ [] "hello" "bonjour"
    (apiHttpFailure 500) ⟨"a", "b", 1⟩ 7 (by decide)

/-! ## Pipeline run (`translateWithAnimations`, src/shared/debug.js:747-959)

The batch loop consumes the translation queue strictly in index order (see
the scheduler model below for the asynchronous structure), so its observable
effect is the sequential fold over batches embedded here.  The channel is a
function from the request sequence number (= batch index) to the result
`callTranslationAPI` observes. -/

/-- The pre-animation element state for an extracted item (its live content
is the extraction-time markup; no classes or `data-llm-*` attributes yet). -/
def blankElem (item : GItem) : ElemState :=
  ⟨.html item.originalInnerHTML, [], none, none, none, none, none⟩

/-- `animateBlockStart` on one item (src/shared/debug.js:1145-1153). -/
def animateBlockStartE (e : ElemState) : ElemState :=
  { e with classes := addClass e.classes "llm-preparing" }

/-- `animateBlockError` on one item (src/shared/debug.js:1155-1161). -/
def animateBlockErrorE (e : ElemState) : ElemState :=
  { e with classes := addClass (removeClass e.classes "llm-preparing") "llm-error" }

/-- `translateMultipleBlocks` as a whole, given the channel result for its
combined request: a successful response is decoded; a failed call rethrows
when fatal and otherwise falls back to every block's original texts
(src/shared/debug.js:1458-1469). -/
inductive TMBResult where
  | ok (res : List (List Str))
  | fatal (e : ChanError)
deriving Repr, DecidableEq

def translateMultipleBlocksRun (blocks : List (List GItem)) (res : ChannelResult) :
    TMBResult :=
  match res with
  | .ok text => .ok (tmbDecode blocks text.data)
  | .fail f =>
    if (classifyChannelError f).isFatalError then .fatal (classifyChannelError f)
    else .ok (blocks.map (fun b => b.map (fun it => it.originalText.data)))

/-- `translatedTexts[i] || item.originalText` (src/shared/debug.js:1591). -/
def effTranslated (trs : List String) (i : Nat) (item : GItem) : String :=
  match trs.get? i with
  | some t => if t = "" then item.originalText else t
  | none => item.originalText

/-- `batchTranslations[j] || block.map(item => item.originalText)`
(src/shared/debug.js:842). -/
def blockTrs (translations : List (List Str)) (j : Nat) (block : List GItem) :
    List String :=
  match translations.get? j with
  | some l => l.map String.mk
  | none => block.map (·.originalText)

/-- Element states after a batch whose translation promise resolved
successfully: block start animation, then the line transitions. -/
def runBatchSuccess (batch : List (List GItem)) (translations : List (List Str)) :
    List (List ElemState) :=
  batch.enum.map (fun bj =>
    bj.2.enum.map (fun ii =>
      animateLineTransition (animateBlockStartE (blankElem ii.2)) ii.2
        (effTranslated (blockTrs translations bj.1 bj.2) ii.1 ii.2)))

/-- Element states of a batch reached when a fatal error aborts the loop:
`animateBlockStart` already ran for its blocks, nothing else did. -/
def runBatchStarted (batch : List (List GItem)) : List (List ElemState) :=
  batch.map (fun block => block.map (fun it => animateBlockStartE (blankElem it)))

/-- Element states of the batches never attempted after a fatal abort. -/
def runBatchUntouched (batch : List (List GItem)) : List (List ElemState) :=
  batch.map (fun block => block.map blankElem)

structure RunResult where
  states : List (List (List ElemState))
  completedBlocks : Nat
  status : String
  errorType : Option String
deriving Repr, DecidableEq

/-- The batch loop of `translateWithAnimations` followed by the final status
update of `startTranslation`: batches are consumed in order; a fatal error
emits the `error` state carrying the classified `errorType` and stops; a run
that exhausts its batches is reported `completed`. -/
def runBatches (ch : Nat → ChannelResult) :
    List (List (List GItem)) → Nat → Nat → RunResult
  | [], _, completed => ⟨[], completed, "completed", none⟩
  | batch :: rest, idx, completed =>
    match translateMultipleBlocksRun batch (ch idx) with
    | .ok translations =>
      let r := runBatches ch rest (idx + 1) (completed + batch.length)
      ⟨runBatchSuccess batch translations :: r.states, r.completedBlocks,
        r.status, r.errorType⟩
    | .fatal e =>
      ⟨runBatchStarted batch :: rest.map runBatchUntouched, completed,
        "error", e.errorType⟩

def runTranslation (batches : List (List (List GItem))) (ch : Nat → ChannelResult) :
    RunResult :=
  runBatches ch batches 0 0

/-- A channel outcome that `callTranslationAPI` does not classify fatal. -/
def NotFatalOutcome (res : ChannelResult) : Prop :=
  match res with
  | .ok _ => True
  | .fail f => (classifyChannelError f).isFatalError = false

theorem tmb_fail_nonfatal {blocks : List (List GItem)} {f : ChannelFailure}
    (h : (classifyChannelError f).isFatalError = false) :
    translateMultipleBlocksRun blocks (.fail f) =
      .ok (blocks.map (fun b => b.map (fun it => it.originalText.data))) := by
  simp only [translateMultipleBlocksRun]
  rw [if_neg]
  simp [h]

theorem tmb_ok_of_notFatal {blocks : List (List GItem)} {res : ChannelResult}
    (h : NotFatalOutcome res) :
    ∃ tr, translateMultipleBlocksRun blocks res = .ok tr := by
  match res with
  | .ok text => exact ⟨_, rfl⟩
  | .fail f =>
    simp only [NotFatalOutcome] at h
    exact ⟨_, tmb_fail_nonfatal h⟩

theorem runBatches_status_completed (ch : Nat → ChannelResult)
    (bs : List (List (List GItem))) (idx completed : Nat)
    (hall : ∀ k, k < bs.length → NotFatalOutcome (ch (idx + k))) :
    (runBatches ch bs idx completed).status = "completed" := by
  induction bs generalizing idx completed with
  | nil => rfl
  | cons batch rest ih =>
    obtain ⟨tr, htr⟩ := @tmb_ok_of_notFatal batch _
      (by simpa using hall 0 (by simp))
    simp only [runBatches, htr]
    apply ih (idx + 1) (completed + batch.length)
    intro k hk
    have heq : idx + 1 + k = idx + (k + 1) := by omega
    rw [heq]
    apply hall (k + 1)
    simp only [List.length_cons]
    omega

/-- The states a batch's blocks end in when its channel call failed
non-fatally: every item is animated through the normal translated path with
its own original text. -/
def runBatchOriginalFallback (batch : List (List GItem)) : List (List ElemState) :=
  batch.map (fun block => block.map (fun it =>
    animateLineTransition (animateBlockStartE (blankElem it)) it it.originalText))

theorem runBatchSuccess_originals (batch : List (List GItem)) :
    runBatchSuccess batch (batch.map (fun b => b.map (fun it => it.originalText.data))) =
      runBatchOriginalFallback batch := by
  unfold runBatchSuccess runBatchOriginalFallback
  apply List.ext_getElem
  · simp
  · intro j h1 h2
    simp only [List.getElem_map, List.getElem_enum]
    apply List.ext_getElem
    · simp
    · intro i hi1 hi2
      simp only [List.getElem_map, List.getElem_enum]
      congr 1
      have hjb : j < batch.length := by simpa using h2
      have hib : i < batch[j].length := by simpa using hi2
      have e1 : blockTrs (batch.map (fun b => b.map (fun it => it.originalText.data)))
          j batch[j] = batch[j].map (fun it => String.mk it.originalText.data) := by
        unfold blockTrs
        rw [List.get?_eq_getElem?, List.getElem?_eq_getElem (by simpa using hjb)]
        simp
      have e2 : effTranslated (batch[j].map (fun it => String.mk it.originalText.data))
          i batch[j][i] = batch[j][i].originalText := by
        unfold effTranslated
        rw [List.get?_eq_getElem?, List.getElem?_eq_getElem (by simpa using hib)]
        simp only [List.getElem_map]
        show (if String.mk (batch[j][i].originalText.data) = "" then
          batch[j][i].originalText else
          String.mk (batch[j][i].originalText.data)) = batch[j][i].originalText
        split <;> rfl
      exact (congrArg (fun x => effTranslated x i batch[j][i]) e1).trans e2

theorem runBatches_nonfatal_fail_states (ch : Nat → ChannelResult)
    (bs : List (List (List GItem))) (idx completed : Nat) (j : Nat)
    (hj : j < bs.length) (f : ChannelFailure) (hfail : ch (idx + j) = .fail f)
    (hnf : (classifyChannelError f).isFatalError = false)
    (hbefore : ∀ k, k < j → NotFatalOutcome (ch (idx + k))) :
    (runBatches ch bs idx completed).states.getD j [] =
      runBatchOriginalFallback (bs.getD j []) := by
  induction bs generalizing idx completed j with
  | nil => exact absurd hj (by simp)
  | cons batch rest ih =>
    match j with
    | 0 =>
      simp only [Nat.add_zero] at hfail
      simp only [runBatches, hfail, @tmb_fail_nonfatal batch _ hnf]
      simpa using runBatchSuccess_originals batch
    | j' + 1 =>
      obtain ⟨tr, htr⟩ := @tmb_ok_of_notFatal batch _
        (by simpa using hbefore 0 (by omega))
      simp only [runBatches, htr]
      have := ih (idx + 1) (completed + batch.length) j'
        (by simp only [List.length_cons] at hj; omega)
        (by have heq : idx + 1 + j' = idx + (j' + 1) := by omega
            rw [heq]; exact hfail)
        (fun k hk => by
          have heq : idx + 1 + k = idx + (k + 1) := by omega
          rw [heq]; exact hbefore (k + 1) (by omega))
      simpa using this

/-- C2 (amended): a batch whose channel call fails with a non-fatal
(retryable, non-4xx) error resolves to its blocks' original texts, so every
item in that batch is animated through the normal translated path showing its
original text (the per-item `llm-error` marking is not applied on this path);
the pipeline continues, and a run with no fatal failure finishes with status
`completed`. -/
theorem C2_nonfatal_batch_degrades (batches : List (List (List GItem)))
    (ch : Nat → ChannelResult)
    (hall : ∀ k, k < batches.length → NotFatalOutcome (ch k))
    (j : Nat) (hj : j < batches.length) (f : ChannelFailure)
    (hfail : ch j = .fail f) :
    (runTranslation batches ch).status = "completed" ∧
    (runTranslation batches ch).states.getD j [] =
      runBatchOriginalFallback (batches.getD j []) := by
  constructor
  · exact runBatches_status_completed ch batches 0 0 (by simpa using hall)
  · have hnf : (classifyChannelError f).isFatalError = false := by
      have := hall j hj
      rw [hfail] at this
      simpa [NotFatalOutcome] using this
    exact runBatches_nonfatal_fail_states ch batches 0 0 j hj f (by simpa using hfail)
      hnf (fun k hk => by simpa using hall k (by omega))

/-- Counterexample to C2 as stated: with two single-block batches where the
channel returns a retryable 500 for batch 0 and succeeds for batch 1, the
run completes, but the items of batch 0 carry the translated-path classes and
NOT the `llm-error` class the claim requires. -/
theorem C2_counterexample :
    (runTranslation [[[mkP "first batch text"]], [[mkP "second batch text"]]]
      (fun i => if i = 0 then .fail (apiHttpFailure 500)
        else .ok "segundo texto")).status = "completed" ∧
    "llm-error" ∉
      ((((runTranslation [[[mkP "first batch text"]], [[mkP "second batch text"]]]
        (fun i => if i = 0 then .fail (apiHttpFailure 500)
          else .ok "segundo texto")).states.getD 0 []).getD 0 []).getD 0
            (blankElem (mkP "z"))).classes ∧
    "llm-translated" ∈
      ((((runTranslation [[[mkP "first batch text"]], [[mkP "second batch text"]]]
        (fun i => if i = 0 then .fail (apiHttpFailure 500)
          else .ok "segundo texto")).states.getD 0 []).getD 0 []).getD 0
            (blankElem (mkP "z"))).classes := by
  refine ⟨?_, ?_, ?_⟩ <;> decide

/-- Witness for the amended C2 at the counterexample's concrete run. -/
theorem C2_nonfatal_batch_degrades_witness :
    (runTranslation [[[mkP "first batch text"]], [[mkP "second batch text"]]]
      (fun i => if i = 0 then .fail (apiHttpFailure 500)
        else .ok "segundo texto")).status = "completed" ∧
    (runTranslation [[[mkP "first batch text"]], [[mkP "second batch text"]]]
      (fun i => if i = 0 then .fail (apiHttpFailure 500)
        else .ok "segundo texto")).states.getD 0 [] =
      runBatchOriginalFallback ([[[mkP "first batch text"]],
        [[mkP "second batch text"]]].getD 0 []) :=
  C2_nonfatal_batch_degrades [[[mkP "first batch text"]], [[mkP "second batch text"]]]
    (fun i => if i = 0 then .fail (apiHttpFailure 500) else .ok "segundo texto")
    (fun k hk => by
      by_cases h0 : k = 0
      · subst h0
        show NotFatalOutcome (.fail (apiHttpFailure 500))
        simp only [NotFatalOutcome]
        decide
      · show NotFatalOutcome (if k = 0 then _ else .ok "segundo texto")
        rw [if_neg h0]
        trivial)
    0 (by decide) (apiHttpFailure 500) (by decide)

mutual
inductive DNode where
  | text (s : String)
  | elem (id : Nat) (tag : String) (attrs : List (String × String))
      (classes : List String) (display visibility : String) (children : DNodeList)
inductive DNodeList where
  | nil
  | cons (n : DNode) (rest : DNodeList)
end

/-- A parent element as the walker observes it: its own fields plus the
ancestor chain `(id, tagName, classes)` nearest-first up to and including the
walk root (`document.body` in the end-to-end scenario). -/
structure PElem where
  id : Nat
  tag : String
  attrs : List (String × String)
  classes : List String
  display : String
  visibility : String
  children : DNodeList
  ancestors : List (Nat × String × List String)

def strLower (s : Str) : Str := s.map Char.toLower

def attrLookup (attrs : List (String × String)) (name : String) : Option String :=
  match attrs.find? (fun p => p.1 = name) with
  | some p => some p.2
  | none => none

/-- Serialized attribute string for `innerHTML` snapshots. -/
def serAttrs : List (String × String) → Str
  | [] => []
  | (n, v) :: rest => ' ' :: (n.data ++ '=' :: '"' :: v.data ++ ['"']) ++ serAttrs rest

mutual
/-- `innerHTML`-style serialization of a node (tags lowercased; character
escaping is not modelled — the properties proved never feed markup-bearing
text through it). -/
def serN : DNode → Str
  | .text s => s.data
  | .elem _ tag attrs classes _ _ children =>
    '<' :: strLower tag.data ++ serAttrs attrs ++
      (if classes = [] then [] else serAttrs [("class", String.intercalate " " classes)]) ++
      '>' :: serL children ++ '<' :: '/' :: strLower tag.data ++ ['>']
def serL : DNodeList → Str
  | .nil => []
  | .cons n rest => serN n ++ serL rest
end

def innerHTMLOf (children : DNodeList) : Str := serL children

mutual
/-- `parent.querySelector('a[href]')` as a Boolean: some descendant element
is an anchor with an `href` attribute. -/
def hasLinkN : DNode → Bool
  | .text _ => false
  | .elem _ tag attrs _ _ _ children =>
    (strLower tag.data = "a".data && (attrLookup attrs "href").isSome) || hasLinkL children
def hasLinkL : DNodeList → Bool
  | .nil => false
  | .cons n rest => hasLinkN n || hasLinkL rest
end

def gatherBadTags : List String := ["SCRIPT", "STYLE", "NOSCRIPT", "SVG", "CANVAS"]

mutual
/-- The text nodes `getAllTextNodesInElement` accepts
(src/shared/debug.js:1817-1870): any descendant text node whose parent is not
a script-like element and whose content is not blank. -/
def gatherN (parentTag : String) : DNode → List String
  | .text s =>
    if gatherBadTags.contains parentTag then []
    else if trimL s.data = [] then []
    else [s]
  | .elem _ tag _ _ _ _ children => gatherL tag children
def gatherL (parentTag : String) : DNodeList → List String
  | .nil => []
  | .cons n rest => gatherN parentTag n ++ gatherL parentTag rest
end

def extractBadTags : List String :=
  ["SCRIPT", "STYLE", "NOSCRIPT", "SVG", "CANVAS", "CODE", "PRE"]

/-- The `acceptNode` filter of the extraction walker
(src/shared/debug.js:641-682). -/
def walkerAccept (parent : PElem) (s : String) : Bool :=
  let text := trimL s.data
  decide (5 ≤ text.length) &&
  !(extractBadTags.contains parent.tag) &&
  !(attrLookup parent.attrs "aria-hidden" = some "true" : Bool) &&
  !(parent.classes.contains "llm-no-translate") &&
  !(parent.display = "none" : Bool) &&
  !(parent.visibility = "hidden" : Bool)

mutual
/-- Document-order traversal yielding each accepted text node with its parent
element's data. -/
def collectN (parent : PElem) : DNode → List (PElem × String)
  | .text s => if walkerAccept parent s then [(parent, s)] else []
  | .elem id tag attrs classes disp vis children =>
    collectL ⟨id, tag, attrs, classes, disp, vis, children,
      (parent.id, parent.tag, parent.classes) :: parent.ancestors⟩ children
def collectL (parent : PElem) : DNodeList → List (PElem × String)
  | .nil => []
  | .cons n rest => collectN parent n ++ collectL parent rest
end

structure ExtractedItem where
  originalText : String
  originalHTML : Option String
  hasLinks : Bool
  originalInnerHTML : String
  element : PElem

/-- The main loop of `extractTextElements` (src/shared/debug.js:684-735):
deduplicate by parent element, aggregate all of the parent's text nodes, and
emit an item only when the aggregated text has at least 10 characters. -/
def extractLoop : List (PElem × String) → List Nat → List ExtractedItem
  | [], _ => []
  | (parent, s) :: rest, processed =>
    let text := trimL s.data
    if text = [] then extractLoop rest processed
    else if processed.contains parent.id then extractLoop rest processed
    else if 5 ≤ text.length then
      let allTextNodes := (gatherL parent.tag parent.children).take 50
      let fullText := trimL ((allTextNodes.map String.data).flatten)
      if 10 ≤ fullText.length then
        { originalText := String.mk fullText
          originalHTML := if hasLinkL parent.children then
              some (String.mk (innerHTMLOf parent.children)) else none
          hasLinks := hasLinkL parent.children
          originalInnerHTML := String.mk (innerHTMLOf parent.children)
          element := parent } :: extractLoop rest (processed ++ [parent.id])
      else extractLoop rest processed
    else extractLoop rest processed

/-- `extractTextElements(container)` with the 1000-node safety cap. -/
def extractTextElements (root : DNode) : List ExtractedItem :=
  match root with
  | .text _ => []
  | .elem id tag attrs classes disp vis children =>
    extractLoop ((collectL ⟨id, tag, attrs, classes, disp, vis, children, []⟩
      children).take 1000) []

/-- `element.closest('ul, ol, table, blockquote, .content, .post')`. -/
def isContainerSel (tagU : String) (classes : List String) : Bool :=
  strLower tagU.data = "ul".data || strLower tagU.data = "ol".data ||
  strLower tagU.data = "table".data || strLower tagU.data = "blockquote".data ||
  classes.contains "content" || classes.contains "post"

def closestContainer (p : PElem) : Option Nat :=
  if isContainerSel p.tag p.classes then some p.id
  else (p.ancestors.find? (fun a => isContainerSel a.2.1 a.2.2)).map (·.1)

/-- The grouping observations of an extracted item: lowercased tag, parent
element identity, `getElementDepth` (ancestors strictly below
`document.body`, plus the element itself) and the nearest container. -/
def itemToGItem (it : ExtractedItem) : GItem :=
  { tag := String.mk (strLower it.element.tag.data)
    parentId := match it.element.ancestors with
      | (i, _, _) :: _ => i
      | [] => 0
    depth := (it.element.ancestors.takeWhile (fun a => a.2.1 ≠ "BODY")).length + 1
    container := closestContainer it.element
    originalText := it.originalText
    originalHTML := it.originalHTML
    hasLinks := it.hasLinks
    originalInnerHTML := it.originalInnerHTML }

/-- Batch chunking: `textBlocks.slice(i, i + blocksPerRequest)`
(src/shared/debug.js:775-778). -/
def batchifyGo {α : Type} (bpr : Nat) : Nat → List α → List (List α)
  | _, [] => []
  | 0, l => [l]
  | fuel + 1, l => l.take bpr :: batchifyGo bpr fuel (l.drop bpr)

def batchify {α : Type} (bpr : Nat) (blocks : List α) : List (List α) :=
  batchifyGo bpr blocks.length blocks

/-- The document of end-to-end scenario 1:
`<body><h1>Hello</h1><p>World of tests</p></body>`. -/
def demoRoot : DNode :=
  .elem 0 "BODY" [] [] "block" "visible"
    (.cons (.elem 1 "H1" [] [] "block" "visible" (.cons (.text "Hello") .nil))
      (.cons (.elem 2 "P" [] [] "block" "visible"
        (.cons (.text "World of tests") .nil)) .nil))

/-- Counterexample to C4 as stated: on
`<h1>Hello</h1><p>World of tests</p>` extraction yields exactly ONE item, not
two — the heading's aggregated text `"Hello"` has only 5 characters, below
the 10-character minimum the claim itself cites. -/
theorem C4_counterexample :
    (extractTextElements demoRoot).length = 1 ∧
    ¬ (extractTextElements demoRoot).length = 2 := by
  refine ⟨?_, by decide⟩
  rfl

/-- C4 (amended): on `<h1>Hello</h1><p>World of tests</p>`, extraction yields
exactly 1 item (`"World of tests"`), grouping yields 1 block, with
blocks-per-request 5 the encode produces one single-segment payload, and a
channel response `"Mundo de pruebas"` decodes to `[["Mundo de pruebas"]]`. -/
theorem C4_demo_end_to_end :
    (extractTextElements demoRoot).map (·.originalText) = ["World of tests"] ∧
    groupIntoBlocks ((extractTextElements demoRoot).map itemToGItem) =
      [[{ tag := "p", parentId := 0, depth := 1, container := none,
          originalText := "World of tests", originalHTML := none,
          hasLinks := false, originalInnerHTML := "World of tests" }]] ∧
    batchify 5 (groupIntoBlocks ((extractTextElements demoRoot).map itemToGItem)) =
      [groupIntoBlocks ((extractTextElements demoRoot).map itemToGItem)] ∧
    tmbCombined (groupIntoBlocks ((extractTextElements demoRoot).map itemToGItem)) =
      "World of tests".data ∧
    tmbDecode (groupIntoBlocks ((extractTextElements demoRoot).map itemToGItem))
      "Mundo de pruebas".data = [["Mundo de pruebas".data]] := by
  refine ⟨by decide, by decide, by decide, by decide, by decide⟩

/-! ## Pipeline Scheduler event model (src/shared/debug.js:774-834)

The asynchronous structure of `translateWithAnimations` as a small-step
machine: the consumer loop interleaves with network completions, which may
arrive in any order (the schedule).  Consumer events: `animStart i`
(`animateBlockStart` for batch `i`'s blocks) together with the depth-2
lookahead `launch (i+2)` when applicable, then — only once request `i` has
resolved (`await translationQueue[batchIndex]`) — `apply i`.  Before the
loop, batch 0 and (when more than one batch exists) batch 1 are launched. -/

inductive PipeEvent where
  | launch (k : Nat)
  | animStart (i : Nat)
  | apply (i : Nat)
  | resolve (k : Nat)
deriving Repr, DecidableEq

structure PipeState where
  n : Nat
  launched : Nat
  resolved : List Nat
  consumed : Nat
  waiting : Bool
  trace : List PipeEvent
deriving Repr, DecidableEq

/-- The synchronous prologue: `startNextTranslation()` for batch 0 and, if
more than one batch exists, batch 1 (src/shared/debug.js:808-812). -/
def pipeInit (n : Nat) : PipeState :=
  if n = 0 then ⟨n, 0, [], 0, false, []⟩
  else if n = 1 then ⟨n, 1, [], 0, false, [.launch 0]⟩
  else ⟨n, 2, [], 0, false, [.launch 0, .launch 1]⟩

inductive PipeChoice where
  | net (k : Nat)
  | consume
deriving Repr, DecidableEq

/-- One interleaving step: either some launched, unresolved request `k`
completes on the network, or the consumer loop makes progress (start
animations and the lookahead launch for the current batch, or apply its
result once resolved). -/
def pipeStep (st : PipeState) : PipeChoice → PipeState
  | .net k =>
    if k < st.launched ∧ k ∉ st.resolved then
      { st with resolved := k :: st.resolved, trace := st.trace ++ [.resolve k] }
    else st
  | .consume =>
    if st.consumed < st.n then
      if st.waiting then
        if st.consumed ∈ st.resolved then
          { st with consumed := st.consumed + 1, waiting := false,
                    trace := st.trace ++ [.apply st.consumed] }
        else st
      else
        if st.consumed + 2 < st.n ∧ st.launched ≤ st.consumed + 2 then
          { st with waiting := true, launched := st.launched + 1,
                    trace := st.trace ++ [.animStart st.consumed, .launch (st.consumed + 2)] }
        else
          { st with waiting := true, trace := st.trace ++ [.animStart st.consumed] }
    else st

def pipeRun (n : Nat) (sched : List PipeChoice) : PipeState :=
  sched.foldl pipeStep (pipeInit n)

def isApplyEvent : PipeEvent → Bool
  | .apply _ => true
  | _ => false

/-- The machine's reachability invariant. -/
structure PipeInv (n : Nat) (st : PipeState) : Prop where
  hn : st.n = n
  htake : n ≥ 2 → st.trace.take 2 = [.launch 0, .launch 1]
  happly : st.trace.filter isApplyEvent = (List.range st.consumed).map .apply
  hlaunched : n ≥ 2 →
    st.launched = min n (st.consumed + (if st.waiting then 1 else 0) + 2)
  hconsumed : st.consumed + (if st.waiting then 1 else 0) ≤ n
  hpair : ∀ i, i + 2 < n → .animStart i ∈ st.trace →
    ∃ p s, st.trace = p ++ [.animStart i, .launch (i + 2)] ++ s ∧ .apply i ∉ p
  hresolved : ∀ i, i < st.consumed → i ∈ st.resolved

theorem pipeInit_inv (n : Nat) : PipeInv n (pipeInit n) := by
  unfold pipeInit
  split
  · rename_i h0
    refine ⟨rfl, ?_, by simp, ?_, by simp, ?_, ?_⟩
    · intro h2; omega
    · intro h2; omega
    · intro i hi hmem; simp at hmem
    · intro i hi; simp at hi
  · split
    · rename_i h0 h1
      refine ⟨rfl, ?_, by simp [isApplyEvent], ?_, by simp, ?_, ?_⟩
      · intro h2; omega
      · intro h2; omega
      · intro i hi hmem
        simp only [List.mem_singleton] at hmem
        cases hmem
      · intro i hi; simp at hi
    · rename_i h0 h1
      refine ⟨rfl, fun _ => rfl, by simp [isApplyEvent], ?_, by simp, ?_, ?_⟩
      · intro h2; simp; omega
      · intro i hi hmem
        simp only [List.mem_cons, List.mem_singleton] at hmem
        rcases hmem with hmem | hmem | hmem
        · cases hmem
        · cases hmem
        · cases hmem
      · intro i hi; simp at hi

theorem pipeStep_inv {n : Nat} {st : PipeState} (h : PipeInv n st) (c : PipeChoice) :
    PipeInv n (pipeStep st c) := by
  obtain ⟨hn, htake, happly, hlaunched, hconsumed, hpair, hresolved⟩ := h
  have hlen2 : n ≥ 2 → 2 ≤ st.trace.length := by
    intro h2
    have h := htake h2
    have hl : (st.trace.take 2).length = 2 := by rw [h]; rfl
    rw [List.length_take] at hl
    omega
  have htake_app : ∀ (e : List PipeEvent), n ≥ 2 →
      (st.trace ++ e).take 2 = [.launch 0, .launch 1] := by
    intro e h2
    rw [List.take_append_of_le_length (hlen2 h2)]
    exact htake h2
  have hpair_app : ∀ (e : List PipeEvent), (∀ i, .animStart i ∉ e) →
      ∀ i, i + 2 < n → .animStart i ∈ st.trace ++ e →
      ∃ p s, st.trace ++ e = p ++ [.animStart i, .launch (i + 2)] ++ s ∧
        .apply i ∉ p := by
    intro e he i hi hmem
    rcases List.mem_append.mp hmem with hmem | hmem
    · obtain ⟨p, s, hps, hnp⟩ := hpair i hi hmem
      exact ⟨p, s ++ e, by rw [hps]; simp, hnp⟩
    · exact absurd hmem (he i)
  cases c with
  | net k =>
    simp only [pipeStep]
    split
    · refine ⟨hn, htake_app _, by simpa [isApplyEvent] using happly,
        hlaunched, hconsumed, hpair_app _ (by simp), ?_⟩
      intro i hi
      exact List.mem_cons_of_mem _ (hresolved i hi)
    · exact ⟨hn, htake, happly, hlaunched, hconsumed, hpair, hresolved⟩
  | consume =>
    simp only [pipeStep]
    split
    · rename_i hlt
      split
      · rename_i hw
        split
        · rename_i hres
          refine ⟨hn, htake_app _, ?_, ?_,
            by simp [hw] at hconsumed; simp; omega, hpair_app _ (by simp), ?_⟩
          · rw [List.filter_append, happly]
            simp [isApplyEvent, List.range_succ]
          · intro h2
            have hlc := hlaunched h2
            simp [hw] at hlc
            simp [hlc]
          · intro i hi
            have hi' : i < st.consumed + 1 := hi
            rcases Nat.lt_succ_iff_lt_or_eq.mp hi' with hi2 | hi2
            · exact hresolved i hi2
            · subst hi2; exact hres
        · exact ⟨hn, htake, happly, hlaunched, hconsumed, hpair, hresolved⟩
      · rename_i hw
        have hwf : st.waiting = false := by simpa using hw
        split
        · rename_i hcond
          refine ⟨hn, htake_app _, ?_, ?_,
            by simp [hwf] at hconsumed; simp; omega, ?_, hresolved⟩
          · rw [List.filter_append, happly]
            simp [isApplyEvent]
          · intro h2
            have hlc := hlaunched h2
            simp [hwf] at hlc
            simp [hlc]
            omega
          · intro i hi hmem
            rcases List.mem_append.mp hmem with hmem | hmem
            · obtain ⟨p, s, hps, hnp⟩ := hpair i hi hmem
              exact ⟨p, s ++ [.animStart st.consumed, .launch (st.consumed + 2)],
                by rw [hps]; simp, hnp⟩
            · simp only [List.mem_cons, List.mem_singleton, List.not_mem_nil,
                or_false] at hmem
              rcases hmem with hmem | hmem
              · simp only [PipeEvent.animStart.injEq] at hmem
                subst hmem
                refine ⟨st.trace, [], by simp, ?_⟩
                intro hcontra
                have hmem2 : PipeEvent.apply st.consumed ∈
                    (List.range st.consumed).map .apply := by
                  rw [← happly]
                  exact List.mem_filter.mpr ⟨hcontra, by simp [isApplyEvent]⟩
                simp only [List.mem_map, List.mem_range] at hmem2
                obtain ⟨a, ha1, ha2⟩ := hmem2
                simp only [PipeEvent.apply.injEq] at ha2
                omega
              · simp at hmem
        · rename_i hcond
          -- with n ≥ 2 the lookahead condition cannot fail while i + 2 < n,
          -- so the single-event branch only adds animStart for i + 2 ≥ n
          refine ⟨hn, htake_app _, ?_, ?_,
            by simp [hwf] at hconsumed; simp; omega, ?_, hresolved⟩
          · rw [List.filter_append, happly]
            simp [isApplyEvent]
          · intro h2
            have hl := hlaunched h2
            simp [hwf] at hl
            simp [hl]
            rw [not_and_or] at hcond
            rcases hcond with hcond | hcond
            · omega
            · omega
          · intro i hi hmem
            rcases List.mem_append.mp hmem with hmem | hmem
            · obtain ⟨p, s, hps, hnp⟩ := hpair i hi hmem
              exact ⟨p, s ++ [.animStart st.consumed], by rw [hps]; simp, hnp⟩
            · simp only [List.mem_singleton] at hmem
              simp only [PipeEvent.animStart.injEq] at hmem
              subst hmem
              exfalso
              rw [not_and_or] at hcond
              rcases hcond with hcond | hcond
              · omega
              · have h2 : n ≥ 2 := by omega
                have hl := hlaunched h2
                simp [hwf] at hl
                omega
    · exact ⟨hn, htake, happly, hlaunched, hconsumed, hpair, hresolved⟩

theorem pipeRun_inv (n : Nat) (sched : List PipeChoice) : PipeInv n (pipeRun n sched) := by
  unfold pipeRun
  induction sched using List.reverseRecOn with
  | nil => exact pipeInit_inv n
  | append_singleton xs c ih =>
    rw [List.foldl_append]
    exact pipeStep_inv ih c

/-- C7: for every run with more than one batch and EVERY interleaving of
network completions, batches 0 and 1 are launched before any animation
begins; whenever batch `i` with `i + 2 < n` starts animating, batch `i + 2`
is launched at that moment and before batch `i`'s result is applied
(constant depth-2 lookahead); results are applied strictly in batch-index
order; and a batch's result is applied only after its own request resolved. -/
theorem C7_scheduler_lookahead_order (n : Nat) (sched : List PipeChoice) :
    (n ≥ 2 → (pipeRun n sched).trace.take 2 = [.launch 0, .launch 1]) ∧
    ((pipeRun n sched).trace.filter isApplyEvent =
      (List.range (pipeRun n sched).consumed).map .apply) ∧
    (∀ i, i + 2 < n → .animStart i ∈ (pipeRun n sched).trace →
      ∃ p s, (pipeRun n sched).trace = p ++ [.animStart i, .launch (i + 2)] ++ s ∧
        .apply i ∉ p) ∧
    (∀ i, i < (pipeRun n sched).consumed → i ∈ (pipeRun n sched).resolved) :=
  let h := pipeRun_inv n sched
  ⟨h.htake, h.happly, h.hpair, h.hresolved⟩

/-- Witness for C7: four batches, with batch 1's response arriving before
batch 0's — applications still happen in index order and the lookahead
launches fire. -/
theorem C7_scheduler_lookahead_order_witness :
    (pipeRun 4 [.consume, .net 1, .net 0, .consume, .consume, .net 2, .consume,
      .consume, .net 3, .consume, .consume, .consume]).trace.take 2 =
      [.launch 0, .launch 1] ∧
    ((pipeRun 4 [.consume, .net 1, .net 0, .consume, .consume, .net 2, .consume,
      .consume, .net 3, .consume, .consume, .consume]).trace.filter isApplyEvent =
      (List.range (pipeRun 4 [.consume, .net 1, .net 0, .consume, .consume, .net 2,
        .consume, .consume, .net 3, .consume, .consume, .consume]).consumed).map .apply) ∧
    (∃ p s, (pipeRun 4 [.consume, .net 1, .net 0, .consume, .consume, .net 2, .consume,
      .consume, .net 3, .consume, .consume, .consume]).trace =
        p ++ [.animStart 0, .launch 2] ++ s ∧ .apply 0 ∉ p) ∧
    (0 ∈ (pipeRun 4 [.consume, .net 1, .net 0, .consume, .consume, .net 2, .consume,
      .consume, .net 3, .consume, .consume, .consume]).resolved) := by
  have h := C7_scheduler_lookahead_order 4 [.consume, .net 1, .net 0, .consume,
    .consume, .net 2, .consume, .consume, .net 3, .consume, .consume, .consume]
  exact ⟨h.1 (by omega), h.2.1, h.2.2.1 0 (by omega) (by decide),
    h.2.2.2 0 (by decide)⟩

/-! ## Link codec round trip (C5)

The universally quantified round-trip statement is made over a grammar of
HTML strings: an alternation of text runs and canonical anchors
`<a href="u">t</a>`.  The well-formedness conditions keep each piece inside
what the source regexes parse unambiguously and keep the restore loop's
string replacement literal: text and inner text contain no `<` (no stray
tags) and no `[` (no placeholder look-alikes), inner text has no line
terminators (the regex `.` does not cross lines) and no `$` (no
GetSubstitution patterns in the replacement built from it), it is invariant
under the full JS `trim()`, and the href value has no quotes, `>`, `=`,
`[` or `$`. -/

inductive Seg where
  | txt (s : Str)
  | anchor (href inner : Str)
deriving Repr, DecidableEq

def renderSeg : Seg → Str
  | .txt s => s
  | .anchor u t => "<a href=\"".data ++ u ++ '"' :: '>' :: (t ++ "</a>".data)

def render : List Seg → Str
  | [] => []
  | s :: rest => renderSeg s ++ render rest

def hrefSafe (c : Char) : Bool :=
  !(c = '"' || c = '\'' || c = '>' || c = '=' || c = '[' || c = '$')

def innerSafe (c : Char) : Bool :=
  !(c = '<' || c = '[' || c = '$' || c = '\n' || c = '\r' ||
    c = Char.ofNat 0x2028 || c = Char.ofNat 0x2029)

def txtSafe (c : Char) : Bool := !(c = '<' || c = '[')

def WFSeg : Seg → Prop
  | .txt s => s.all txtSafe = true
  | .anchor u t => u.all hrefSafe = true ∧ t.all innerSafe = true ∧ trimL t = t

instance : DecidablePred WFSeg := fun sg => by
  unfold WFSeg
  match sg with
  | .txt s => exact inferInstance
  | .anchor u t => exact inferInstance

/-- The encoded text: each anchor becomes `[LINK_n]inner[/LINK_n]`, numbering
continuing from `c`. -/
def encR (c : Nat) : List Seg → Str
  | [] => []
  | .txt s :: rest => s ++ encR c rest
  | .anchor _ t :: rest =>
    linkToken (c + 1) ++ t ++ linkCloseToken (c + 1) ++ encR (c + 1) rest

def anchorEntry (u t : Str) : LinkData :=
  { originalHTML := renderSeg (.anchor u t), href := u, originalText := t,
    attributes := "href=\"".data ++ u ++ ['"'] }

/-- The link-map entries the encode records. -/
def encE (c : Nat) : List Seg → LinkMap
  | [] => []
  | .txt _ :: rest => encE c rest
  | .anchor u t :: rest => (c + 1, anchorEntry u t) :: encE (c + 1) rest

theorem takeWhile_append_all {p : Char → Bool} {a : Str} (b : Str)
    (h : a.all p = true) : (a ++ b).takeWhile p = a ++ b.takeWhile p := by
  induction a with
  | nil => simp
  | cons x a ih =>
    simp only [List.all_cons, Bool.and_eq_true] at h
    simp [List.takeWhile_cons, h.1, ih h.2]

theorem dropWhile_append_all {p : Char → Bool} {a : Str} (b : Str)
    (h : a.all p = true) : (a ++ b).dropWhile p = b.dropWhile p := by
  induction a with
  | nil => simp
  | cons x a ih =>
    simp only [List.all_cons, Bool.and_eq_true] at h
    simp [List.dropWhile_cons, h.1, ih h.2]

theorem takeWhile_append_stop {p : Char → Bool} {a : Str} {c : Char} (b : Str)
    (h : a.all p = true) (hc : p c = false) :
    (a ++ c :: b).takeWhile p = a := by
  rw [takeWhile_append_all _ h]
  simp [List.takeWhile_cons, hc]

theorem dropWhile_append_stop {p : Char → Bool} {a : Str} {c : Char} (b : Str)
    (h : a.all p = true) (hc : p c = false) :
    (a ++ c :: b).dropWhile p = c :: b := by
  rw [dropWhile_append_all _ h]
  simp [List.dropWhile_cons, hc]

theorem toNat_ofNat_small {k : Nat} (h : k < 0xd800) : (Char.ofNat k).toNat = k := by
  unfold Char.ofNat
  rw [dif_pos (Or.inl (by exact_mod_cast h))]
  simp [Char.ofNatAux, Char.toNat, UInt32.toNat]

theorem toLower_ne_nonletter {d : Char} (hd : d.toNat < 97 ∨ 122 < d.toNat)
    {c : Char} (hc : c ≠ d) : c.toLower ≠ d := by
  unfold Char.toLower
  simp only []
  split
  · rename_i h
    intro heq
    have h2 : (Char.ofNat (c.toNat + 32)).toNat = d.toNat := by rw [heq]
    rw [toNat_ofNat_small (by omega)] at h2
    omega
  · exact hc

theorem ciIsPrefix_close_false {c : Char} (hc : c ≠ '<') (cs : Str) :
    ciIsPrefix "</a>".data (c :: cs) = false := by
  show ciIsPrefix ('<' :: '/' :: 'a' :: '>' :: []) (c :: cs) = false
  have h := toLower_ne_nonletter (d := '<') (by decide) hc
  simp [ciIsPrefix, h]

theorem matchInner_eval {t : Str} (ht : t.all innerSafe = true) (z : Str) :
    matchInner (t ++ '<' :: '/' :: 'a' :: '>' :: z) = some (t, z) := by
  induction t with
  | nil => rfl
  | cons c t' ih =>
    simp only [List.all_cons, Bool.and_eq_true] at ht
    have hc : c ≠ '<' ∧ ¬(c = '\n' ∨ c = '\r' ∨ c = Char.ofNat 0x2028 ∨ c = Char.ofNat 0x2029) := by
      have := ht.1
      unfold innerSafe at this
      simp at this
      tauto
    show matchInner (c :: (t' ++ '<' :: '/' :: 'a' :: '>' :: z)) = some (c :: t', z)
    unfold matchInner
    rw [ciIsPrefix_close_false hc.1]
    simp only [Bool.false_eq_true, if_false]
    rw [if_neg hc.2]
    rw [ih ht.2]

theorem matchFromHref_eval {u t : Str} (hu : u.all hrefSafe = true)
    (ht : t.all innerSafe = true) (z : Str) :
    matchFromHref ('h' :: 'r' :: 'e' :: 'f' :: '=' :: '"' ::
      (u ++ '"' :: '>' :: (t ++ '<' :: '/' :: 'a' :: '>' :: z))) = some (u, t, z) := by
  have hval : (u ++ '"' :: '>' :: (t ++ '<' :: '/' :: 'a' :: '>' :: z)).takeWhile
      (fun c => decide ¬(c = '"' ∨ c = '\'')) = u := by
    apply takeWhile_append_stop
    · rw [List.all_eq_true] at hu ⊢
      intro x hx
      have := hu x hx
      unfold hrefSafe at this
      simp at this ⊢
      tauto
    · decide
  unfold matchFromHref
  rw [if_pos (by rfl)]
  simp only [List.drop_succ_cons, List.drop_zero, List.dropWhile_cons,
    (by decide : isJsSpace '=' = false), (by decide : isJsSpace '"' = false),
    Bool.false_eq_true, if_false]
  rw [hval, List.drop_left]
  simp only [(by decide : (('"' : Char) = '"' ∨ ('"' : Char) = '\'') = True), if_true,
    List.takeWhile_cons, (by decide : (fun x => decide (x ≠ '>')) '>' = false),
    Bool.false_eq_true, if_false, List.takeWhile_nil, List.length_nil, List.drop_zero]
  rw [matchInner_eval ht]
  simp

theorem dropWhile_append_cases (p : Char → Bool) (A B : Str) :
    (A ++ B).dropWhile p =
      (if (A.dropWhile p).isEmpty then B.dropWhile p else A.dropWhile p ++ B) := by
  induction A with
  | nil => simp
  | cons x A ih =>
    by_cases hx : p x
    · simp only [List.cons_append, List.dropWhile_cons, hx, if_true, ih]
    · simp only [List.cons_append, List.dropWhile_cons, hx, Bool.false_eq_true, if_false]
      simp

theorem mem_of_mem_dropWhile {p : Char → Bool} {x : Char} {l : Str}
    (h : x ∈ l.dropWhile p) : x ∈ l :=
  (List.dropWhile_suffix p).subset h

theorem matchFromHref_none_safe (w : Str) (hw : w.all hrefSafe = true) (z : Str) :
    matchFromHref (w ++ '"' :: '>' :: z) = none := by
  rcases w with _ | ⟨a, _ | ⟨b, _ | ⟨c, _ | ⟨d, w'⟩⟩⟩⟩
  · rfl
  · unfold matchFromHref
    rw [if_neg]
    intro hci
    have hci' : ciIsPrefix ('h' :: 'r' :: 'e' :: 'f' :: []) ([a] ++ '"' :: '>' :: z) = true := hci
    simp only [List.singleton_append, ciIsPrefix, Bool.and_eq_true, decide_eq_true_eq] at hci'
    exact absurd hci'.2.1 (by decide)
  · unfold matchFromHref
    rw [if_neg]
    intro hci
    have hci' : ciIsPrefix ('h' :: 'r' :: 'e' :: 'f' :: []) ([a, b] ++ '"' :: '>' :: z) = true := hci
    simp only [List.cons_append, List.nil_append, ciIsPrefix, Bool.and_eq_true,
      decide_eq_true_eq] at hci'
    exact absurd hci'.2.2.1 (by decide)
  · unfold matchFromHref
    rw [if_neg]
    intro hci
    have hci' : ciIsPrefix ('h' :: 'r' :: 'e' :: 'f' :: []) ([a, b, c] ++ '"' :: '>' :: z) = true := hci
    simp only [List.cons_append, List.nil_append, ciIsPrefix, Bool.and_eq_true,
      decide_eq_true_eq] at hci'
    exact absurd hci'.2.2.2.1 (by decide)
  · have hw' : w'.all hrefSafe = true := by
      simp only [List.all_cons, Bool.and_eq_true] at hw
      exact hw.2.2.2.2
    unfold matchFromHref
    by_cases hci : ciIsPrefix "href".data ((a :: b :: c :: d :: w') ++ '"' :: '>' :: z) = true
    · rw [if_pos hci]
      have h2 : ∃ h tl, (List.drop 4 ((a :: b :: c :: d :: w') ++ '"' :: '>' :: z)).dropWhile
          isJsSpace = h :: tl ∧ h ≠ '=' := by
        show ∃ h tl, (w' ++ '"' :: '>' :: z).dropWhile isJsSpace = h :: tl ∧ h ≠ '='
        rw [dropWhile_append_cases]
        by_cases hempty : (w'.dropWhile isJsSpace).isEmpty
        · rw [if_pos hempty]
          exact ⟨'"', '>' :: z,
            by simp [List.dropWhile_cons, (by decide : isJsSpace '"' = false)], by decide⟩
        · rw [if_neg hempty]
          rcases hd : w'.dropWhile isJsSpace with _ | ⟨h, tl⟩
          · rw [hd] at hempty; simp at hempty
          · refine ⟨h, tl ++ '"' :: '>' :: z, by simp, ?_⟩
            have hmem : h ∈ w' := mem_of_mem_dropWhile (p := isJsSpace) (by rw [hd]; simp)
            have hsafe := List.all_eq_true.mp hw' h hmem
            unfold hrefSafe at hsafe
            simp at hsafe
            tauto
      obtain ⟨h, tl, heq, hne⟩ := h2
      split
      · rename_i v3 heq2
        rw [heq] at heq2
        injection heq2 with h1 h2
        exact absurd h1 hne
      · rfl
    · rw [if_neg hci]

theorem all_sublist_drop {p : Char → Bool} {l : Str} (h : l.all p = true) (k : Nat) :
    (l.drop k).all p = true := by
  rw [List.all_eq_true] at h ⊢
  intro x hx
  exact h x ((List.drop_subset _ _) hx)

theorem anchorAttempt_fails (u txt z : Str) (hu : u.all hrefSafe = true)
    (m : Nat) (hm : 1 ≤ m) :
    anchorHeadOk (' ' :: 'h' :: 'r' :: 'e' :: 'f' :: '=' :: '"' ::
        (u ++ '"' :: '>' :: (txt ++ '<' :: '/' :: 'a' :: '>' :: z))) (m + 1) = false ∨
    matchFromHref (('h' :: 'r' :: 'e' :: 'f' :: '=' :: '"' ::
        (u ++ '"' :: '>' :: (txt ++ '<' :: '/' :: 'a' :: '>' :: z))).drop m) = none := by
  by_cases h8 : 8 + u.length ≤ m
  · -- the `>` closing the opening tag falls inside the `[^>]*` region
    left
    have hmem : '>' ∈ (('h' :: 'r' :: 'e' :: 'f' :: '=' :: '"' ::
        (u ++ '"' :: '>' :: (txt ++ '<' :: '/' :: 'a' :: '>' :: z)))).take ((m + 1) - 1) := by
      have hform : ('h' :: 'r' :: 'e' :: 'f' :: '=' :: '"' ::
          (u ++ '"' :: '>' :: (txt ++ '<' :: '/' :: 'a' :: '>' :: z))) =
          ('h' :: 'r' :: 'e' :: 'f' :: '=' :: '"' :: (u ++ ['"'])) ++
            '>' :: (txt ++ '<' :: '/' :: 'a' :: '>' :: z) := by
        simp
      rw [hform]
      rw [List.take_append_eq_append_take]
      refine List.mem_append.mpr (Or.inr ?_)
      have hlen : ('h' :: 'r' :: 'e' :: 'f' :: '=' :: '"' :: (u ++ ['"'])).length =
          7 + u.length := by simp; omega
      rw [hlen]
      have : 1 ≤ (m + 1) - 1 - (7 + u.length) := by omega
      rcases Nat.exists_eq_add_of_le this with ⟨k, hk⟩
      rw [hk]
      simp [List.take_cons]
    have hall : (('h' :: 'r' :: 'e' :: 'f' :: '=' :: '"' ::
        (u ++ '"' :: '>' :: (txt ++ '<' :: '/' :: 'a' :: '>' :: z))).take ((m + 1) - 1)).all
        (· ≠ '>') = false := by
      cases hv : (('h' :: 'r' :: 'e' :: 'f' :: '=' :: '"' ::
          (u ++ '"' :: '>' :: (txt ++ '<' :: '/' :: 'a' :: '>' :: z))).take ((m + 1) - 1)).all
          (· ≠ '>') with
      | false => rfl
      | true =>
        exfalso
        have := List.all_eq_true.mp hv '>' hmem
        simp at this
    have hred : anchorHeadOk (' ' :: 'h' :: 'r' :: 'e' :: 'f' :: '=' :: '"' ::
        (u ++ '"' :: '>' :: (txt ++ '<' :: '/' :: 'a' :: '>' :: z))) (m + 1) =
        (decide (m + 1 ≤ (' ' :: 'h' :: 'r' :: 'e' :: 'f' :: '=' :: '"' ::
          (u ++ '"' :: '>' :: (txt ++ '<' :: '/' :: 'a' :: '>' :: z))).length) &&
         (isJsSpace ' ' && (('h' :: 'r' :: 'e' :: 'f' :: '=' :: '"' ::
          (u ++ '"' :: '>' :: (txt ++ '<' :: '/' :: 'a' :: '>' :: z))).take ((m + 1) - 1)).all
          (· ≠ '>'))) := rfl
    rw [hred, hall]
    simp
  · by_cases h7 : m = 7 + u.length
    · right
      subst h7
      have hform : ('h' :: 'r' :: 'e' :: 'f' :: '=' :: '"' ::
          (u ++ '"' :: '>' :: (txt ++ '<' :: '/' :: 'a' :: '>' :: z))) =
          ('h' :: 'r' :: 'e' :: 'f' :: '=' :: '"' :: (u ++ ['"'])) ++
            '>' :: (txt ++ '<' :: '/' :: 'a' :: '>' :: z) := by simp
      rw [hform]
      have hlen : ('h' :: 'r' :: 'e' :: 'f' :: '=' :: '"' :: (u ++ ['"'])).length =
          7 + u.length := by simp; omega
      rw [show 7 + u.length = ('h' :: 'r' :: 'e' :: 'f' :: '=' :: '"' ::
        (u ++ ['"'])).length + 0 from by rw [hlen]; omega, List.drop_append]
      rfl
    · by_cases h6 : 6 ≤ m
      · right
        have hform : ('h' :: 'r' :: 'e' :: 'f' :: '=' :: '"' ::
            (u ++ '"' :: '>' :: (txt ++ '<' :: '/' :: 'a' :: '>' :: z))) =
            ('h' :: 'r' :: 'e' :: 'f' :: '=' :: '"' :: []) ++
              (u ++ '"' :: '>' :: (txt ++ '<' :: '/' :: 'a' :: '>' :: z)) := by simp
        rw [hform]
        rcases Nat.exists_eq_add_of_le h6 with ⟨k, hk⟩
        rw [show m = ('h' :: 'r' :: 'e' :: 'f' :: '=' :: '"' :: ([] : Str)).length + k from
          by simp; omega, List.drop_append]
        have hk_le : k ≤ u.length := by
          simp at hform
          omega
        rw [List.drop_append_of_le_length hk_le]
        have : (u.drop k) ++ '"' :: '>' :: (txt ++ '<' :: '/' :: 'a' :: '>' :: z) =
            (u.drop k) ++ '"' :: '>' :: (txt ++ '<' :: '/' :: 'a' :: '>' :: z) := rfl
        exact matchFromHref_none_safe (u.drop k) (all_sublist_drop hu k) _
      · right
        interval_cases m
        · rfl
        · rfl
        · rfl
        · rfl
        · rfl

theorem tryAnchorPs_finds (u txt z : Str) (hu : u.all hrefSafe = true)
    (ht : txt.all innerSafe = true) :
    ∀ N, 1 ≤ N → tryAnchorPs (' ' :: 'h' :: 'r' :: 'e' :: 'f' :: '=' :: '"' ::
      (u ++ '"' :: '>' :: (txt ++ '<' :: '/' :: 'a' :: '>' :: z))) N =
      some (1, u, txt, z) := by
  intro N
  induction N with
  | zero => omega
  | succ pp ih =>
    intro _
    by_cases hpp : pp = 0
    · subst hpp
      have h1 : anchorHeadOk (' ' :: 'h' :: 'r' :: 'e' :: 'f' :: '=' :: '"' ::
          (u ++ '"' :: '>' :: (txt ++ '<' :: '/' :: 'a' :: '>' :: z))) 1 = true := by
        simp [anchorHeadOk, (by decide : isJsSpace ' ' = true)]
      unfold tryAnchorPs
      rw [h1]
      simp only [if_true]
      have hdrop : (' ' :: 'h' :: 'r' :: 'e' :: 'f' :: '=' :: '"' ::
          (u ++ '"' :: '>' :: (txt ++ '<' :: '/' :: 'a' :: '>' :: z))).drop (0 + 1) =
          ('h' :: 'r' :: 'e' :: 'f' :: '=' :: '"' ::
          (u ++ '"' :: '>' :: (txt ++ '<' :: '/' :: 'a' :: '>' :: z))) := rfl
      rw [hdrop, matchFromHref_eval hu ht]
    · have hpp1 : 1 ≤ pp := by omega
      rcases anchorAttempt_fails u txt z hu pp hpp1 with hfail | hnone
      · unfold tryAnchorPs
        rw [hfail]
        simp only [Bool.false_eq_true, if_false]
        exact ih hpp1
      · unfold tryAnchorPs
        by_cases hok : anchorHeadOk (' ' :: 'h' :: 'r' :: 'e' :: 'f' :: '=' :: '"' ::
            (u ++ '"' :: '>' :: (txt ++ '<' :: '/' :: 'a' :: '>' :: z))) (pp + 1) = true
        · rw [hok]
          simp only [if_true, List.drop_succ_cons]
          rw [hnone]
          exact ih hpp1
        · rw [Bool.not_eq_true] at hok
          rw [hok]
          simp only [Bool.false_eq_true, if_false]
          exact ih hpp1

theorem matchAnchorAt_eval (u txt z : Str) (hu : u.all hrefSafe = true)
    (ht : txt.all innerSafe = true) :
    matchAnchorAt ('<' :: 'a' :: ' ' :: 'h' :: 'r' :: 'e' :: 'f' :: '=' :: '"' ::
      (u ++ '"' :: '>' :: (txt ++ '<' :: '/' :: 'a' :: '>' :: z))) =
      some ⟨u, txt, 15 + u.length + txt.length⟩ := by
  have hred : matchAnchorAt ('<' :: 'a' :: ' ' :: 'h' :: 'r' :: 'e' :: 'f' :: '=' :: '"' ::
      (u ++ '"' :: '>' :: (txt ++ '<' :: '/' :: 'a' :: '>' :: z))) =
      (if ('<' : Char) = '<' ∧ ('a' : Char).toLower = 'a' then
        match tryAnchorPs (' ' :: 'h' :: 'r' :: 'e' :: 'f' :: '=' :: '"' ::
            (u ++ '"' :: '>' :: (txt ++ '<' :: '/' :: 'a' :: '>' :: z)))
            (' ' :: 'h' :: 'r' :: 'e' :: 'f' :: '=' :: '"' ::
            (u ++ '"' :: '>' :: (txt ++ '<' :: '/' :: 'a' :: '>' :: z))).length with
        | some (_, href, inner, rest) => some ⟨href, inner,
            ('<' :: 'a' :: ' ' :: 'h' :: 'r' :: 'e' :: 'f' :: '=' :: '"' ::
            (u ++ '"' :: '>' :: (txt ++ '<' :: '/' :: 'a' :: '>' :: z))).length - rest.length⟩
        | none => none
      else none) := rfl
  rw [hred, if_pos (by decide)]
  rw [tryAnchorPs_finds u txt z hu ht _ (by simp)]
  have hlen : ('<' :: 'a' :: ' ' :: 'h' :: 'r' :: 'e' :: 'f' :: '=' :: '"' ::
      (u ++ '"' :: '>' :: (txt ++ '<' :: '/' :: 'a' :: '>' :: z))).length - z.length =
      15 + u.length + txt.length := by
    simp [List.length_cons, List.length_append]
    omega
  show some (AnchorMatch.mk u txt (('<' :: 'a' :: ' ' :: 'h' :: 'r' :: 'e' :: 'f' :: '=' :: '"' ::
      (u ++ '"' :: '>' :: (txt ++ '<' :: '/' :: 'a' :: '>' :: z))).length - z.length)) =
      some (AnchorMatch.mk u txt (15 + u.length + txt.length))
  rw [hlen]

theorem natDigitsGo_digits (fuel n : Nat) :
    ∀ x ∈ natDigitsGo fuel n, 48 ≤ x.toNat ∧ x.toNat ≤ 57 := by
  induction fuel generalizing n with
  | zero => intro x hx; simp [natDigitsGo] at hx
  | succ f ih =>
    intro x hx
    unfold natDigitsGo at hx
    by_cases h : n < 10
    · rw [if_pos h] at hx
      simp at hx
      subst hx
      rw [toNat_ofNat_small (by omega)]
      omega
    · rw [if_neg h] at hx
      rcases List.mem_append.mp hx with h1 | h2
      · exact ih _ x h1
      · simp at h2
        subst h2
        rw [toNat_ofNat_small (by omega)]
        have : n % 10 < 10 := Nat.mod_lt _ (by omega)
        omega

theorem natDigits_digits (n : Nat) : ∀ x ∈ natDigits n, 48 ≤ x.toNat ∧ x.toNat ≤ 57 :=
  natDigitsGo_digits (n + 1) n

theorem char_ne_of_toNat_ne {x c : Char} (h : x.toNat ≠ c.toNat) : x ≠ c := by
  intro he; exact h (by rw [he])

theorem linkToken_eq_cons (n : Nat) :
    linkToken n = '[' :: ('L' :: 'I' :: 'N' :: 'K' :: '_' :: (natDigits n ++ [']'])) := rfl

theorem linkCloseToken_eq_cons (n : Nat) :
    linkCloseToken n = '[' :: ('/' :: 'L' :: 'I' :: 'N' :: 'K' :: '_' :: (natDigits n ++ [']'])) := rfl

theorem linkToken_tail_free (n : Nat) :
    ('L' :: 'I' :: 'N' :: 'K' :: '_' :: (natDigits n ++ [']'])).all (· ≠ '[') = true := by
  rw [List.all_eq_true]
  intro x hx
  simp only [List.mem_cons, List.mem_append, List.mem_singleton] at hx
  rcases hx with h | h | h | h | h | ⟨h | ⟨h | h⟩⟩
  · subst h; decide
  · subst h; decide
  · subst h; decide
  · subst h; decide
  · subst h; decide
  · have := natDigits_digits n x h
    simp only [decide_eq_true_eq]
    refine char_ne_of_toNat_ne ?_
    have h91 : ('[' : Char).toNat = 91 := by decide
    omega
  · subst h; decide
  · simp at h

theorem not_prefix_in_free_prefix {tt : Str} :
    ∀ (P rest : Str), P.all (· ≠ '[') = true →
    ∀ k, k < P.length → ¬ (('[' :: tt).isPrefixOf ((P ++ rest).drop k) = true) := by
  intro P
  induction P with
  | nil => intro rest _ k hk; simp at hk
  | cons p P' ih =>
    intro rest hfree k hk
    simp only [List.all_cons, Bool.and_eq_true, decide_eq_true_eq] at hfree
    cases k with
    | zero =>
      simp only [List.cons_append, List.drop_zero]
      intro hpre
      rw [List.isPrefixOf_iff_prefix] at hpre
      rw [List.cons_prefix_cons] at hpre
      exact hfree.1 hpre.1.symm
    | succ j =>
      simp only [List.cons_append, List.drop_succ_cons]
      exact ih rest hfree.2 j (by simp at hk; omega)

theorem indexOfL_eq {sub : Str} (hsub : sub ≠ []) :
    ∀ (s : Str) (i : Nat), sub.isPrefixOf (s.drop i) = true →
    (∀ k, k < i → ¬ (sub.isPrefixOf (s.drop k) = true)) →
    indexOfL sub s = (i : Int) := by
  intro s
  induction s with
  | nil =>
    intro i hocc _
    exfalso
    rw [List.drop_nil, List.isPrefixOf_iff_prefix] at hocc
    exact hsub (List.prefix_nil.mp hocc)
  | cons c rest ih =>
    intro i hocc hmin
    cases i with
    | zero =>
      rw [List.drop_zero] at hocc
      unfold indexOfL
      rw [if_pos hocc]
      simp
    | succ j =>
      have h0 : ¬ (sub.isPrefixOf (c :: rest) = true) := by
        have := hmin 0 (by omega)
        simpa using this
      unfold indexOfL
      rw [if_neg h0]
      have hr : indexOfL sub rest = (j : Int) := by
        apply ih j
        · simpa using hocc
        · intro k hk
          have := hmin (k + 1) (by omega)
          simpa using this
      simp only [hr]
      rw [if_neg (by omega)]
      omega

theorem substringL_eval (A B C : Str) :
    substringL (A ++ B ++ C) (A.length : Int) ((A.length : Int) + B.length) = B := by
  have hn : ((A ++ B ++ C).length : Int) = (A.length : Int) + B.length + C.length := by
    simp [List.length_append]
    ring
  simp only [substringL]
  rw [hn]
  have h1 : (max 0 (min (A.length : Int) ((A.length : Int) + B.length + C.length))).toNat
      = A.length := by omega
  have h2 : (max 0 (min ((A.length : Int) + B.length)
      ((A.length : Int) + B.length + C.length))).toNat = A.length + B.length := by omega
  rw [h1, h2]
  have h3 : max A.length (A.length + B.length) = A.length + B.length := by omega
  have h4 : min A.length (A.length + B.length) = A.length := by omega
  rw [h3, h4]
  rw [List.append_assoc, List.take_append, List.take_left, List.drop_left]

theorem getSubstitution_no_dollar (matched before after : Str) :
    ∀ (repl : Str), repl.all (· ≠ '$') = true →
    getSubstitution matched before after repl = repl := by
  intro repl
  induction repl with
  | nil => intro _; rfl
  | cons c rest ih =>
    intro h
    simp only [List.all_cons, Bool.and_eq_true, decide_eq_true_eq] at h
    cases rest with
    | nil =>
      have hred : getSubstitution matched before after [c] =
          (if c = '$' then ['$'] else c :: getSubstitution matched before after []) := rfl
      rw [hred, if_neg h.1]
      rfl
    | cons d rest2 =>
      have hred : getSubstitution matched before after (c :: d :: rest2) =
          (if c = '$' then
            (if d = '$' then '$' :: getSubstitution matched before after rest2
             else if d = '&' then matched ++ getSubstitution matched before after rest2
             else if d = Char.ofNat 0x60 then
               before ++ getSubstitution matched before after rest2
             else if d = '\'' then after ++ getSubstitution matched before after rest2
             else '$' :: d :: getSubstitution matched before after rest2)
          else c :: getSubstitution matched before after (d :: rest2)) := rfl
      rw [hred, if_neg h.1, ih h.2]

theorem all_append_ne {x : Char} {a b : Str} (ha : a.all (· ≠ x) = true)
    (hb : b.all (· ≠ x) = true) : (a ++ b).all (· ≠ x) = true := by
  rw [List.all_append, ha, hb]
  rfl

theorem replaceFirstL_at (sec E repl : Str) (hsec : sec ≠ [])
    (hnd : repl.all (· ≠ '$') = true) :
    ∀ (P before : Str),
    (∀ k, k < P.length → ¬ (sec.isPrefixOf ((P ++ (sec ++ E)).drop k) = true)) →
    replaceFirstL sec repl (P ++ (sec ++ E)).length (P ++ (sec ++ E)) before =
      P ++ (repl ++ E) := by
  intro P
  induction P with
  | nil =>
    intro before hmin
    rcases sec with _ | ⟨c, st⟩
    · exact absurd rfl hsec
    · unfold replaceFirstL
      simp only [List.nil_append, List.cons_append, List.length_cons]
      rw [if_pos (by rw [List.isPrefixOf_iff_prefix]; exact ⟨E, by simp⟩)]
      have : (c :: st).length - 1 = st.length := by simp
      simp only [List.length_cons, Nat.add_sub_cancel]
      rw [List.drop_append_of_le_length (le_refl _)]
      rw [List.drop_length, List.nil_append]
      rw [getSubstitution_no_dollar _ _ _ _ hnd]
  | cons p P' ih =>
    intro before hmin
    have h0 := hmin 0 (by simp)
    unfold replaceFirstL
    simp only [List.cons_append, List.length_cons, List.drop_zero] at h0 ⊢
    rw [if_neg h0]
    have ih' := ih (before ++ [p]) (fun k hk => by
      have := hmin (k + 1) (by simp; omega)
      simpa using this)
    rw [ih']

theorem replaceFirst_at (P sec E repl : Str) (hsec : sec ≠ [])
    (hmin : ∀ k, k < P.length → ¬ (sec.isPrefixOf ((P ++ (sec ++ E)).drop k) = true))
    (hnd : repl.all (· ≠ '$') = true) :
    replaceFirst sec repl (P ++ (sec ++ E)) = P ++ (repl ++ E) := by
  unfold replaceFirst
  exact replaceFirstL_at sec E repl hsec hnd P [] hmin

theorem linkToken_ne_nil (n : Nat) : linkToken n ≠ [] := by
  rw [linkToken_eq_cons]; simp

theorem prefix_self_append (a b : Str) : a.isPrefixOf (a ++ b) = true := by
  rw [List.isPrefixOf_iff_prefix]
  exact List.prefix_append a b

theorem restoreOne_step (P t E : Str) (n : Nat) (d : LinkData)
    (hP : P.all (· ≠ '[') = true) (ht : t.all (· ≠ '[') = true) (htr : trimL t = t)
    (htd : t.all (· ≠ '$') = true) (had : d.attributes.all (· ≠ '$') = true) :
    restoreOne (P ++ (linkToken n ++ (t ++ (linkCloseToken n ++ E)))) n d =
      P ++ (('<' :: 'a' :: ' ' :: (d.attributes ++ '>' ::
        (t ++ '<' :: '/' :: 'a' :: '>' :: []))) ++ E) := by
  have hlt : (linkToken n).length = (natDigits n).length + 7 := by
    rw [linkToken_eq_cons]
    simp [List.length_cons, List.length_append]
  have hsi : indexOfL (linkToken n)
      (P ++ (linkToken n ++ (t ++ (linkCloseToken n ++ E)))) = (P.length : Int) := by
    apply indexOfL_eq (linkToken_ne_nil n)
    · rw [show P.length = P.length + 0 from by omega, List.drop_append, List.drop_zero]
      exact prefix_self_append _ _
    · intro k hk
      rw [linkToken_eq_cons]
      exact not_prefix_in_free_prefix P _ hP k hk
  have hei : indexOfL (linkCloseToken n)
      (P ++ (linkToken n ++ (t ++ (linkCloseToken n ++ E)))) =
      ((P.length + (linkToken n).length + t.length : Nat) : Int) := by
    apply indexOfL_eq (by rw [linkCloseToken_eq_cons]; simp)
    · have hT2 : P ++ (linkToken n ++ (t ++ (linkCloseToken n ++ E))) =
          (P ++ (linkToken n ++ t)) ++ (linkCloseToken n ++ E) := by
        simp [List.append_assoc]
      rw [hT2, show P.length + (linkToken n).length + t.length =
        (P ++ (linkToken n ++ t)).length + 0 from by simp; omega, List.drop_append,
        List.drop_zero]
      exact prefix_self_append _ _
    · intro k hk
      by_cases hk1 : k < P.length
      · rw [linkCloseToken_eq_cons]
        exact not_prefix_in_free_prefix P _ hP k hk1
      · by_cases hk2 : k = P.length
        · subst hk2
          rw [show P.length = P.length + 0 from by omega, List.drop_append, List.drop_zero]
        

          rw [linkToken_eq_cons, linkCloseToken_eq_cons]
          simp only [List.cons_append]
          intro hpre
          rw [List.isPrefixOf_iff_prefix, List.cons_prefix_cons] at hpre
          have h2 := hpre.2
          rw [List.cons_prefix_cons] at h2
          exact absurd h2.1 (by decide)
        · by_cases hk3 : k < P.length + 1 + ('L' :: 'I' :: 'N' :: 'K' :: '_' ::
              (natDigits n ++ [']'])).length
          · have hT3 : P ++ (linkToken n ++ (t ++ (linkCloseToken n ++ E))) =
                (P ++ ['[']) ++ (('L' :: 'I' :: 'N' :: 'K' :: '_' :: (natDigits n ++ [']'])) ++
                  (t ++ (linkCloseToken n ++ E))) := by
              rw [linkToken_eq_cons]
              simp [List.append_assoc]
            rw [hT3, show k = (P ++ ['[']).length +
              (k - (P.length + 1)) from by simp; omega, List.drop_append]
            rw [linkCloseToken_eq_cons]
            exact not_prefix_in_free_prefix _ _ (linkToken_tail_free n) _ (by simp at hk3 ⊢; omega)
          · simp only [List.length_cons, List.length_append,
              List.length_singleton] at hk3
            have hT4 : P ++ (linkToken n ++ (t ++ (linkCloseToken n ++ E))) =
                (P ++ linkToken n) ++ (t ++ (linkCloseToken n ++ E)) := by
              simp [List.append_assoc]
            rw [hT4, show k = (P ++ linkToken n).length +
              (k - (P.length + (linkToken n).length)) from by
                simp [List.length_append, hlt]; omega, List.drop_append]
            rw [linkCloseToken_eq_cons]
            refine not_prefix_in_free_prefix _ _ ht _ ?_
            omega
  simp only [restoreOne]
  rw [hsi, hei]
  rw [if_pos (by refine ⟨by omega, by omega, by push_cast; omega⟩)]
  have hext : substringL (P ++ (linkToken n ++ (t ++ (linkCloseToken n ++ E))))
      ((P.length : Int) + ((linkToken n).length : Int))
      ((P.length + (linkToken n).length + t.length : Nat) : Int) = t := by
    rw [show P ++ (linkToken n ++ (t ++ (linkCloseToken n ++ E))) =
      (P ++ linkToken n) ++ t ++ (linkCloseToken n ++ E) from by simp [List.append_assoc]]
    rw [show ((P.length : Int) + ((linkToken n).length : Int)) =
      (((P ++ linkToken n).length : Int)) from by simp]
    rw [show ((P.length + (linkToken n).length + t.length : Nat) : Int) =
      (((P ++ linkToken n).length : Int) + (t.length : Int)) from by push_cast; simp]
    exact substringL_eval _ _ _
  rw [hext, htr]
  have hsec : substringL (P ++ (linkToken n ++ (t ++ (linkCloseToken n ++ E))))
      (P.length : Int)
      (((P.length + (linkToken n).length + t.length : Nat) : Int) +
        ((linkCloseToken n).length : Int)) =
      linkToken n ++ (t ++ linkCloseToken n) := by
    rw [show P ++ (linkToken n ++ (t ++ (linkCloseToken n ++ E))) =
      P ++ (linkToken n ++ (t ++ linkCloseToken n)) ++ E from by simp [List.append_assoc]]
    rw [show (((P.length + (linkToken n).length + t.length : Nat) : Int) +
        ((linkCloseToken n).length : Int)) =
      ((P.length : Int) + ((linkToken n ++ (t ++ linkCloseToken n)).length : Int)) from by
        push_cast; simp; ring]
    exact substringL_eval _ _ _
  rw [hsec]
  have hrepl := replaceFirst_at P (linkToken n ++ (t ++ linkCloseToken n)) E
      ("<a ".data ++ d.attributes ++ ">".data ++ t ++ "</a>".data)
      (by rw [linkToken_eq_cons]; simp)
      (by intro k hk
          rw [show linkToken n ++ (t ++ linkCloseToken n) =
            '[' :: ('L' :: 'I' :: 'N' :: 'K' :: '_' :: (natDigits n ++ [']']) ++
              (t ++ linkCloseToken n)) from by rw [linkToken_eq_cons]; simp]
          exact not_prefix_in_free_prefix P _ hP k hk)
      (all_append_ne (all_append_ne (all_append_ne (all_append_ne
        (by decide) had) (by decide)) htd) (by decide))
  rw [show P ++ (linkToken n ++ (t ++ (linkCloseToken n ++ E))) =
    P ++ ((linkToken n ++ (t ++ linkCloseToken n)) ++ E) from by simp [List.append_assoc]]
  rw [hrepl]
  simp [List.append_assoc]

theorem all_ne_bracket_of {p : Char → Bool} (himp : ∀ c, p c = true → c ≠ '[')
    {s : Str} (h : s.all p = true) : s.all (· ≠ '[') = true := by
  rw [List.all_eq_true] at h ⊢
  intro x hx
  simpa using himp x (h x hx)

theorem all_append_bracket {a b : Str} (ha : a.all (· ≠ '[') = true)
    (hb : b.all (· ≠ '[') = true) : (a ++ b).all (· ≠ '[') = true := by
  rw [List.all_append, ha, hb]
  rfl

theorem restore_append (segs : List Seg) :
    ∀ (c : Nat) (P : Str), P.all (· ≠ '[') = true →
    (∀ sg ∈ segs, WFSeg sg) →
    List.foldl (fun t e => restoreOne t e.1 e.2) (P ++ encR c segs) (encE c segs) =
      P ++ render segs := by
  induction segs with
  | nil => intro c P _ _; simp [encR, encE, render]
  | cons sg rest ih =>
    intro c P hP hwf
    rcases sg with s | ⟨u, t⟩
    · have hs : s.all txtSafe = true := hwf (.txt s) (by simp)
      have hs' : s.all (· ≠ '[') = true :=
        all_ne_bracket_of (by intro c hc; unfold txtSafe at hc; simp at hc; tauto) hs
      show List.foldl (fun t e => restoreOne t e.1 e.2) (P ++ (s ++ encR c rest))
          (encE c rest) = P ++ (s ++ render rest)
      rw [← List.append_assoc, ← List.append_assoc]
      exact ih c (P ++ s) (all_append_bracket hP hs') (fun x hx => hwf x (by simp [hx]))
    · obtain ⟨hu, ht, htr⟩ : u.all hrefSafe = true ∧ t.all innerSafe = true ∧ trimL t = t :=
        hwf (.anchor u t) (by simp)
      have ht' : t.all (· ≠ '[') = true :=
        all_ne_bracket_of (by intro c hc; unfold innerSafe at hc; simp at hc; tauto) ht
      have hu' : u.all (· ≠ '[') = true :=
        all_ne_bracket_of (by intro c hc; unfold hrefSafe at hc; simp at hc; tauto) hu
      have htd : t.all (· ≠ '$') = true := by
        rw [List.all_eq_true] at ht ⊢
        intro x hx
        have := ht x hx
        unfold innerSafe at this
        simp at this ⊢
        tauto
      have hud : u.all (· ≠ '$') = true := by
        rw [List.all_eq_true] at hu ⊢
        intro x hx
        have := hu x hx
        unfold hrefSafe at this
        simp at this ⊢
        tauto
      have had : (anchorEntry u t).attributes.all (· ≠ '$') = true := by
        show ("href=\"".data ++ u ++ ['"']).all (· ≠ '$') = true
        exact all_append_ne (all_append_ne (by decide) hud) (by decide)
      show List.foldl (fun t e => restoreOne t e.1 e.2)
          (P ++ (linkToken (c + 1) ++ t ++ linkCloseToken (c + 1) ++ encR (c + 1) rest))
          ((c + 1, anchorEntry u t) :: encE (c + 1) rest) =
          P ++ (renderSeg (.anchor u t) ++ render rest)
      rw [List.foldl_cons]
      rw [show P ++ (linkToken (c + 1) ++ t ++ linkCloseToken (c + 1) ++ encR (c + 1) rest) =
        P ++ (linkToken (c + 1) ++ (t ++ (linkCloseToken (c + 1) ++ encR (c + 1) rest)))
        from by simp [List.append_assoc]]
      rw [restoreOne_step P t (encR (c + 1) rest) (c + 1) (anchorEntry u t) hP ht' htr
        htd had]
      have hnl : '<' :: 'a' :: ' ' :: ((anchorEntry u t).attributes ++ '>' ::
          (t ++ '<' :: '/' :: 'a' :: '>' :: [])) = renderSeg (.anchor u t) := by
        show '<' :: 'a' :: ' ' :: (("href=\"".data ++ u ++ ['"']) ++ '>' ::
          (t ++ '<' :: '/' :: 'a' :: '>' :: [])) = renderSeg (.anchor u t)
        simp [renderSeg, List.append_assoc]
      rw [hnl]
      rw [show P ++ (renderSeg (.anchor u t) ++ encR (c + 1) rest) =
        (P ++ renderSeg (.anchor u t)) ++ encR (c + 1) rest from by simp [List.append_assoc]]
      have hP' : (P ++ renderSeg (.anchor u t)).all (· ≠ '[') = true := by
        apply all_append_bracket hP
        show ('<' :: 'a' :: ' ' :: 'h' :: 'r' :: 'e' :: 'f' :: '=' :: '"' ::
          (u ++ '"' :: '>' :: (t ++ '<' :: '/' :: 'a' :: '>' :: []))).all (· ≠ '[') = true
        simp only [List.all_cons, Bool.and_eq_true]
        refine ⟨by decide, by decide, by decide, by decide, by decide, by decide, by decide,
          by decide, by decide, ?_⟩
        apply all_append_bracket hu'
        simp only [List.all_cons, Bool.and_eq_true]
        refine ⟨by decide, by decide, ?_⟩
        apply all_append_bracket ht'
        decide
      rw [ih (c + 1) (P ++ renderSeg (.anchor u t)) hP'
        (fun x hx => hwf x (by simp [hx]))]
      simp [List.append_assoc]

theorem attrsOfAt_anchor (u Y : Str) (hu : u.all hrefSafe = true) :
    attrsOfAt ('<' :: 'a' :: ' ' :: 'h' :: 'r' :: 'e' :: 'f' :: '=' :: '"' ::
      (u ++ '"' :: '>' :: Y)) =
      some ('h' :: 'r' :: 'e' :: 'f' :: '=' :: '"' :: (u ++ ['"'])) := by
  have hws : (' ' :: 'h' :: 'r' :: 'e' :: 'f' :: '=' :: '"' ::
      (u ++ '"' :: '>' :: Y)).dropWhile isJsSpace =
      ('h' :: 'r' :: 'e' :: 'f' :: '=' :: '"' :: (u ++ '"' :: '>' :: Y)) := by
    simp only [List.dropWhile_cons, (by decide : isJsSpace ' ' = true),
      (by decide : isJsSpace 'h' = false), Bool.false_eq_true, if_false, if_true]
  have htw : ('h' :: 'r' :: 'e' :: 'f' :: '=' :: '"' ::
      (u ++ '"' :: '>' :: Y)).takeWhile (· ≠ '>') =
      ('h' :: 'r' :: 'e' :: 'f' :: '=' :: '"' :: (u ++ ['"'])) := by
    simp only [List.takeWhile_cons, (by decide : (fun x => decide (x ≠ '>')) 'h' = true),
      (by decide : (fun x => decide (x ≠ '>')) 'r' = true),
      (by decide : (fun x => decide (x ≠ '>')) 'e' = true),
      (by decide : (fun x => decide (x ≠ '>')) 'f' = true),
      (by decide : (fun x => decide (x ≠ '>')) '=' = true),
      (by decide : (fun x => decide (x ≠ '>')) '"' = true), if_true]
    rw [show u ++ '"' :: '>' :: Y = (u ++ ['"']) ++ '>' :: Y from by simp]
    rw [takeWhile_append_stop _ ?hall (by decide)]
    case hall =>
      rw [List.all_append]
      refine Bool.and_eq_true_iff.mpr ⟨?_, by decide⟩
      rw [List.all_eq_true] at hu ⊢
      intro x hx
      have := hu x hx
      unfold hrefSafe at this
      simp at this ⊢
      tauto
  have hred : attrsOfAt ('<' :: 'a' :: ' ' :: 'h' :: 'r' :: 'e' :: 'f' :: '=' :: '"' ::
      (u ++ '"' :: '>' :: Y)) =
      (match ((' ' :: 'h' :: 'r' :: 'e' :: 'f' :: '=' :: '"' ::
          (u ++ '"' :: '>' :: Y)).dropWhile isJsSpace).drop
          ((((' ' :: 'h' :: 'r' :: 'e' :: 'f' :: '=' :: '"' ::
          (u ++ '"' :: '>' :: Y)).dropWhile isJsSpace).takeWhile (· ≠ '>')).length) with
        | '>' :: _ => some (((' ' :: 'h' :: 'r' :: 'e' :: 'f' :: '=' :: '"' ::
            (u ++ '"' :: '>' :: Y)).dropWhile isJsSpace).takeWhile (· ≠ '>'))
        | _ => none) := rfl
  rw [hred, hws, htw]
  have hdrop : ('h' :: 'r' :: 'e' :: 'f' :: '=' :: '"' :: (u ++ '"' :: '>' :: Y)).drop
      ('h' :: 'r' :: 'e' :: 'f' :: '=' :: '"' :: (u ++ ['"'])).length = '>' :: Y := by
    rw [show ('h' :: 'r' :: 'e' :: 'f' :: '=' :: '"' :: (u ++ '"' :: '>' :: Y)) =
      ('h' :: 'r' :: 'e' :: 'f' :: '=' :: '"' :: (u ++ ['"'])) ++ '>' :: Y from by simp]
    exact List.drop_left _ _
  rw [hdrop]
  rfl

theorem attrsOf_anchor (u Y : Str) (hu : u.all hrefSafe = true) :
    attrsOf ('<' :: 'a' :: ' ' :: 'h' :: 'r' :: 'e' :: 'f' :: '=' :: '"' ::
      (u ++ '"' :: '>' :: Y)) u =
      'h' :: 'r' :: 'e' :: 'f' :: '=' :: '"' :: (u ++ ['"']) := by
  unfold attrsOf attrsSearch
  rw [attrsOfAt_anchor u Y hu]

theorem matchAnchorAt_none {c : Char} (hc : c ≠ '<') (rest : Str) :
    matchAnchorAt (c :: rest) = none := by
  cases rest with
  | nil => rfl
  | cons c1 t =>
    have hred : matchAnchorAt (c :: c1 :: t) =
        (if c = '<' ∧ c1.toLower = 'a' then
          match tryAnchorPs t t.length with
          | some (_, href, inner, rest) => some ⟨href, inner, (c :: c1 :: t).length - rest.length⟩
          | none => none
        else none) := rfl
    rw [hred, if_neg (fun h => hc h.1)]

theorem replaceAnchorsGo_render (segs : List Seg) (hwf : ∀ sg ∈ segs, WFSeg sg) :
    ∀ (c : Nat) (map : List (Nat × LinkData)) (fuel : Nat),
    (render segs).length ≤ fuel →
    replaceAnchorsGo fuel (render segs) c map = (encR c segs, map ++ encE c segs) := by
  induction segs with
  | nil =>
    intro c map fuel _
    show replaceAnchorsGo fuel [] c map = ([], map ++ [])
    cases fuel <;> simp [replaceAnchorsGo]
  | cons sg rest ih =>
    intro c map fuel hfuel
    rcases sg with s | ⟨u, t⟩
    · have hs : s.all txtSafe = true := hwf (.txt s) (by simp)
      have hwf' : ∀ x ∈ rest, WFSeg x := fun x hx => hwf x (by simp [hx])
      show replaceAnchorsGo fuel (s ++ render rest) c map =
        (s ++ encR c rest, map ++ encE c rest)
      have hf2 : (s ++ render rest).length ≤ fuel := hfuel
      clear hfuel
      induction s generalizing fuel with
      | nil =>
        simp only [List.nil_append]
        exact ih hwf' c map fuel (by simpa using hf2)
      | cons ch s' ihs =>
        simp only [List.all_cons, Bool.and_eq_true] at hs
        have hch : ch ≠ '<' := by
          have := hs.1
          unfold txtSafe at this
          simp at this
          tauto
        cases fuel with
        | zero =>
          exfalso
          simp [List.length_cons] at hf2
        | succ f =>
          simp only [List.cons_append, replaceAnchorsGo]
          rw [matchAnchorAt_none hch]
          have hwfs' : ∀ sg ∈ Seg.txt s' :: rest, WFSeg sg := by
            intro x hx
            rcases List.mem_cons.mp hx with h | h
            · subst h; exact hs.2
            · exact hwf' x h
          have hres := ihs f hwfs' hs.2 (by simp at hf2 ⊢; omega)
          show (ch :: (replaceAnchorsGo f (s' ++ render rest) c map).1,
              (replaceAnchorsGo f (s' ++ render rest) c map).2) =
            (ch :: (s' ++ encR c rest), map ++ encE c rest)
          rw [hres]
    · obtain ⟨hu, ht, htr⟩ : u.all hrefSafe = true ∧ t.all innerSafe = true ∧ trimL t = t :=
        hwf (.anchor u t) (by simp)
      have hwf' : ∀ x ∈ rest, WFSeg x := fun x hx => hwf x (by simp [hx])
      have hN : render (.anchor u t :: rest) =
          '<' :: 'a' :: ' ' :: 'h' :: 'r' :: 'e' :: 'f' :: '=' :: '"' ::
          (u ++ '"' :: '>' :: (t ++ '<' :: '/' :: 'a' :: '>' :: (render rest))) := by
        show renderSeg (.anchor u t) ++ render rest = _
        simp [renderSeg, List.append_assoc]
      rw [hN] at hfuel ⊢
      cases fuel with
      | zero =>
        exfalso
        simp [List.length_cons] at hfuel
      | succ f =>
        simp only [replaceAnchorsGo]
        rw [matchAnchorAt_eval u t (render rest) hu ht]
        simp only []
        have htake : ('<' :: 'a' :: ' ' :: 'h' :: 'r' :: 'e' :: 'f' :: '=' :: '"' ::
            (u ++ '"' :: '>' :: (t ++ '<' :: '/' :: 'a' :: '>' :: (render rest)))).take
            (15 + u.length + t.length) =
            '<' :: 'a' :: ' ' :: 'h' :: 'r' :: 'e' :: 'f' :: '=' :: '"' ::
            (u ++ '"' :: '>' :: (t ++ '<' :: '/' :: 'a' :: '>' :: [])) := by
          rw [show ('<' :: 'a' :: ' ' :: 'h' :: 'r' :: 'e' :: 'f' :: '=' :: '"' ::
            (u ++ '"' :: '>' :: (t ++ '<' :: '/' :: 'a' :: '>' :: (render rest)))) =
            ('<' :: 'a' :: ' ' :: 'h' :: 'r' :: 'e' :: 'f' :: '=' :: '"' ::
            (u ++ '"' :: '>' :: (t ++ '<' :: '/' :: 'a' :: '>' :: []))) ++ render rest
            from by simp [List.append_assoc]]
          exact List.take_left' (by simp [List.length_cons, List.length_append]; omega)
        have hdrop : List.drop (15 + u.length + t.length - 1)
            ('a' :: ' ' :: 'h' :: 'r' :: 'e' :: 'f' :: '=' :: '"' ::
            (u ++ '"' :: '>' :: (t ++ '<' :: '/' :: 'a' :: '>' :: (render rest)))) =
            render rest := by
          rw [show ('a' :: ' ' :: 'h' :: 'r' :: 'e' :: 'f' :: '=' :: '"' ::
            (u ++ '"' :: '>' :: (t ++ '<' :: '/' :: 'a' :: '>' :: (render rest)))) =
            ('a' :: ' ' :: 'h' :: 'r' :: 'e' :: 'f' :: '=' :: '"' ::
            (u ++ '"' :: '>' :: (t ++ '<' :: '/' :: 'a' :: '>' :: []))) ++ render rest
            from by simp [List.append_assoc]]
          exact List.drop_left' (by simp [List.length_cons, List.length_append]; omega)
        rw [htake, hdrop]
        rw [attrsOf_anchor u (t ++ '<' :: '/' :: 'a' :: '>' :: []) hu]
        have hrec := ih hwf' (c + 1)
          (map ++ [(c + 1,
            { originalHTML := '<' :: 'a' :: ' ' :: 'h' :: 'r' :: 'e' :: 'f' :: '=' :: '"' ::
                (u ++ '"' :: '>' :: (t ++ '<' :: '/' :: 'a' :: '>' :: []))
              href := u
              originalText := t
              attributes := 'h' :: 'r' :: 'e' :: 'f' :: '=' :: '"' :: (u ++ ['"']) })])
          f (by simp [List.length_cons, List.length_append] at hfuel ⊢; omega)
        simp only [hrec]
        simp only [Prod.mk.injEq]
        constructor
        · show linkToken (c + 1) ++ t ++ linkCloseToken (c + 1) ++ encR (c + 1) rest =
            encR c (.anchor u t :: rest)
          rfl
        · rw [show encE c (.anchor u t :: rest) =
            (c + 1, anchorEntry u t) :: encE (c + 1) rest from rfl]
          rw [show (anchorEntry u t) =
            ({ originalHTML := '<' :: 'a' :: ' ' :: 'h' :: 'r' :: 'e' :: 'f' :: '=' :: '"' ::
                (u ++ '"' :: '>' :: (t ++ '<' :: '/' :: 'a' :: '>' :: []))
               href := u
               originalText := t
               attributes := 'h' :: 'r' :: 'e' :: 'f' :: '=' :: '"' :: (u ++ ['"']) } : LinkData)
            from by simp [anchorEntry, renderSeg, List.append_assoc]]
          simp

/-! ### C5: the round-trip theorems -/

/-- The identity round trip is not exact when an anchor's inner text has
surrounding whitespace: `<a href="u"> p</a>` encodes to `[LINK_1] p[/LINK_1]`
and decodes to `<a href="u">p</a>`, because the restore loop trims the
extracted inner text (src/shared/debug.js:1230).  First conjunct: the round
trip differs from the input; second conjunct: it equals the input with the
anchor's inner text trimmed. -/
theorem C5_counterexample :
    (restoreLinksFromPlaceholders
      (replaceLinksWithPlaceholders
        ('<' :: 'a' :: ' ' :: 'h' :: 'r' :: 'e' :: 'f' :: '=' :: '"' :: 'u' :: '"' :: '>' ::
          ' ' :: 'p' :: '<' :: '/' :: 'a' :: '>' :: []) []).1
      (replaceLinksWithPlaceholders
        ('<' :: 'a' :: ' ' :: 'h' :: 'r' :: 'e' :: 'f' :: '=' :: '"' :: 'u' :: '"' :: '>' ::
          ' ' :: 'p' :: '<' :: '/' :: 'a' :: '>' :: []) []).2 ≠
      ('<' :: 'a' :: ' ' :: 'h' :: 'r' :: 'e' :: 'f' :: '=' :: '"' :: 'u' :: '"' :: '>' ::
        ' ' :: 'p' :: '<' :: '/' :: 'a' :: '>' :: [])) ∧
    (restoreLinksFromPlaceholders
      (replaceLinksWithPlaceholders
        ('<' :: 'a' :: ' ' :: 'h' :: 'r' :: 'e' :: 'f' :: '=' :: '"' :: 'u' :: '"' :: '>' ::
          ' ' :: 'p' :: '<' :: '/' :: 'a' :: '>' :: []) []).1
      (replaceLinksWithPlaceholders
        ('<' :: 'a' :: ' ' :: 'h' :: 'r' :: 'e' :: 'f' :: '=' :: '"' :: 'u' :: '"' :: '>' ::
          ' ' :: 'p' :: '<' :: '/' :: 'a' :: '>' :: []) []).2 =
      ('<' :: 'a' :: ' ' :: 'h' :: 'r' :: 'e' :: 'f' :: '=' :: '"' :: 'u' :: '"' :: '>' ::
        'p' :: '<' :: '/' :: 'a' :: '>' :: [])) := by
  constructor
  · decide
  · decide

/-- C5 (corrected): for every HTML string in the anchor grammar — an
alternation of `<`-free, `[`-free text runs and canonical anchors
`<a href="u">t</a>` whose href and inner text are additionally free of `$`
(so the restore loop's `String.replace` substitution is literal: no `$&`,
`$$` and similar GetSubstitution patterns arise in the rebuilt link) and
whose inner text is invariant under the full JS `trim()` — encoding with
`replaceLinksWithPlaceholders` over an empty shared map records exactly one
link-map entry per anchor, in order, carrying the anchor's exact original
HTML, href and attribute string (`encE 0 segs`), and decoding the encoded
text with `restoreLinksFromPlaceholders` over that map (identity channel)
reproduces the exact original HTML. -/
theorem C5_link_roundtrip (segs : List Seg) (hwf : ∀ sg ∈ segs, WFSeg sg) :
    (replaceLinksWithPlaceholders (render segs) []).2 = encE 0 segs ∧
    restoreLinksFromPlaceholders (replaceLinksWithPlaceholders (render segs) []).1
      (replaceLinksWithPlaceholders (render segs) []).2 = render segs := by
  have henc : replaceLinksWithPlaceholders (render segs) [] =
      (encR 0 segs, encE 0 segs) := by
    unfold replaceLinksWithPlaceholders
    have := replaceAnchorsGo_render segs hwf 0 [] (render segs).length (le_refl _)
    simpa using this
  rw [henc]
  refine ⟨rfl, ?_⟩
  unfold restoreLinksFromPlaceholders
  have := restore_append segs 0 [] (by rfl) hwf
  simpa using this

theorem C5_link_roundtrip_witness :
    (∀ sg ∈ [Seg.txt ['y'], Seg.anchor ['u'] ['p'], Seg.txt ['z']], WFSeg sg) ∧
    ((replaceLinksWithPlaceholders
        (render [Seg.txt ['y'], Seg.anchor ['u'] ['p'], Seg.txt ['z']]) []).2 =
      encE 0 [Seg.txt ['y'], Seg.anchor ['u'] ['p'], Seg.txt ['z']] ∧
     restoreLinksFromPlaceholders
        (replaceLinksWithPlaceholders
          (render [Seg.txt ['y'], Seg.anchor ['u'] ['p'], Seg.txt ['z']]) []).1
        (replaceLinksWithPlaceholders
          (render [Seg.txt ['y'], Seg.anchor ['u'] ['p'], Seg.txt ['z']]) []).2 =
      render [Seg.txt ['y'], Seg.anchor ['u'] ['p'], Seg.txt ['z']]) :=
  ⟨by decide, C5_link_roundtrip [Seg.txt ['y'], Seg.anchor ['u'] ['p'], Seg.txt ['z']] (by decide)⟩

end LLM
